import Mathlib

/-!
Shallow embedding of the multi-year financial statement reconciliation engine
(`helpers/merger_helper.py`) and verification of the frozen claims about it.

Python values appearing in `values` mappings are modelled by `PyVal`; Python
dicts (which preserve insertion order and keep the position of a key on
overwrite) are modelled by association lists with an update-in-place-or-append
operation `odSet`.  Python `None` and the empty string are both falsy wherever
GAAP tags and labels are tested, so optional tag/label fields are modelled as
`String` with `""` for an absent value.  Machine integers do not occur; Python
ints are `Int`.  The only places the engine can raise on well-typed input are
`years_sorted[0]` on an empty input and `int(...)` on a non-numeric key, so
`build_unified_catalog` is embedded in `Except String`.
-/

namespace FinMerge

/-- A Python value stored in a `values` mapping: `None`, a number, a string, or
a metadata dict that may carry a `"value"` entry (`vdictNoV` models a dict
without a `"value"` key; either dict is truthy and compares unequal to
`0`/`None`/`""`). -/
inductive PyVal where
  | vnone
  | vnum (n : Int)
  | vstr (s : String)
  | vdictV (value : PyVal)
  | vdictNoV
deriving Repr, DecidableEq

/-- Insertion-ordered string-keyed dictionary, as Python dicts behave. -/
abbrev ODict (α : Type) := List (String × α)

/-- Python `d[k] = v`: overwrite in place if the key exists (keeping its
position), otherwise append at the end. -/
def odSet {α : Type} : ODict α → String → α → ODict α
  | [], k, v => [(k, v)]
  | p :: rest, k, v =>
    if p.1 = k then (k, v) :: rest else p :: odSet rest k v

/-- Python `d.get(k)` / `d[k]` lookup (first binding wins, as in a dict built
without duplicate keys). -/
def odGet? {α : Type} : ODict α → String → Option α
  | [], _ => none
  | p :: rest, k => if p.1 = k then some p.2 else odGet? rest k

/-- Python `k in d`. -/
def odHas {α : Type} (d : ODict α) (k : String) : Bool :=
  (odGet? d k).isSome

/-- The keys of a dict, in insertion order. -/
def odKeys {α : Type} (d : ODict α) : List String := d.map Prod.fst

/-- Python `==` on two string-valued dicts (key sets equal, values equal;
order-insensitive). -/
def odEquiv (a b : ODict String) : Bool :=
  a.all (fun p => odGet? b p.1 = some p.2) && b.all (fun p => odGet? a p.1 = some p.2)

/-- Strict lexicographic comparison of character lists (Python string `<`,
by code points). -/
def charsLt : List Char → List Char → Bool
  | [], [] => false
  | [], _ :: _ => true
  | _ :: _, [] => false
  | a :: as, b :: bs => if a < b then true else if b < a then false else charsLt as bs

/-- Python string `<`. -/
def strLtB (a b : String) : Bool := charsLt a.data b.data

/-- Python string `<=`. -/
def strLeB (a b : String) : Bool := !(strLtB b a)

/-- Decimal digits of a natural number, most significant first (`fuel` bounds
the recursion; every number this code meets has far fewer than 60 digits). -/
def natDigits (fuel n : Nat) : List Char :=
  match fuel with
  | 0 => []
  | fuel + 1 =>
    if n = 0 then []
    else natDigits fuel (n / 10) ++ [Char.ofNat ('0'.toNat + n % 10)]

/-- Python `str(n)` for an integer. -/
def intToStr (i : Int) : String :=
  if i = 0 then "0"
  else if i < 0 then String.mk ('-' :: natDigits 60 i.natAbs)
  else String.mk (natDigits 60 i.natAbs)

/-- Python truthiness of a `PyVal` (`None`, `0`, `""` are falsy; the metadata
dicts this code sees are non-empty, hence truthy). -/
def pyTruthy : PyVal → Bool
  | .vnone => false
  | .vnum n => n != 0
  | .vstr s => s ≠ ""
  | .vdictV _ => true
  | .vdictNoV => true

/-- Python `v != 0` (used by the zero-out report check). -/
def pyNeZero : PyVal → Bool
  | .vnum n => n != 0
  | _ => true

/-- Python `str(v)` for the values this code feeds to its value normalizer.
The repr of a metadata dict is opaque here; it never coincides with a
normalized numeric string in the inputs of interest. -/
def pyStr : PyVal → String
  | .vnone => "None"
  | .vnum n => intToStr n
  | .vstr s => s
  | .vdictV _ => "dict"
  | .vdictNoV => "dict"

-- ---------------------------------------------------------------------------
-- Character-level string helpers (kept structural so closed proofs evaluate)
-- ---------------------------------------------------------------------------

/-- Is `c` a lowercase letter, digit or space (the characters `normalize_label`
keeps after lowercasing)? -/
def keepChar (c : Char) : Bool :=
  ('a' ≤ c && c ≤ 'z') || ('0' ≤ c && c ≤ '9') || c = ' '

/-- Collapse runs of spaces into single spaces and strip outer spaces, on a
character list that contains no other whitespace. -/
def collapseSpaces : List Char → List Char
  | [] => []
  | ' ' :: rest => collapseSpaces rest
  | c :: rest => c :: collapseAfter rest
where
  collapseAfter : List Char → List Char
  | [] => []
  | ' ' :: rest =>
    match collapseAfter rest with
    | [] => []
    | cs => ' ' :: cs
  | c :: rest => c :: collapseAfter rest

/-- `normalize_label`: lowercase, replace every character outside
`[a-z0-9 ]` by a space, collapse whitespace, strip. -/
def normalizeLabel (label : String) : String :=
  if label = "" then ""
  else
    let cleaned := label.data.map (fun c =>
      let c := c.toLower
      if keepChar c then c else ' ')
    String.mk (collapseSpaces cleaned)

/-- Leftmost `(20\d\d|19\d\d)` match in a character list. -/
def findYearToken : List Char → Option String
  | c1 :: c2 :: c3 :: c4 :: rest =>
    if ((c1 = '2' && c2 = '0') || (c1 = '1' && c2 = '9')) && c3.isDigit && c4.isDigit then
      some (String.mk [c1, c2, c3, c4])
    else findYearToken (c2 :: c3 :: c4 :: rest)
  | _ => none

/-- `normalize_year_key`: extract the first 4-digit year token, falling back to
the raw key; empty (falsy) input gives `""`. -/
def normalizeYearKey (key : String) : String :=
  if key = "" then "" else (findYearToken key.data).getD key

/-- `normalize_values`: re-key a values dict by normalized year (later keys win
on collision, as with Python dict assignment). -/
def normalizeValues (values : ODict PyVal) : ODict PyVal :=
  values.foldl (fun acc p => odSet acc (normalizeYearKey p.1) p.2) []

/-- Python `str.strip()` restricted to the space characters these strings can
still contain at this point. -/
def stripSpaces (s : String) : String :=
  String.mk ((s.data.dropWhile (· = ' ')).reverse.dropWhile (· = ' ') |>.reverse)

/-- Python `int(s)`: optional sign followed by digits, surrounding whitespace
ignored; anything else raises `ValueError`. -/
def pyIntE (s : String) : Except String Int :=
  let t := stripSpaces s
  match t.data with
  | '-' :: ds => if ds ≠ [] && ds.all Char.isDigit then
      .ok (-(Int.ofNat (digitsToNat ds))) else .error ("ValueError " ++ s)
  | ds => if ds ≠ [] && ds.all Char.isDigit then
      .ok (Int.ofNat (digitsToNat ds)) else .error ("ValueError " ++ s)
where
  digitsToNat (ds : List Char) : Nat :=
    ds.foldl (fun acc c => 10 * acc + (c.toNat - '0'.toNat)) 0

-- ---------------------------------------------------------------------------
-- Data model
-- ---------------------------------------------------------------------------

/-- One line item of a period document: `{label, gaap, values}` (absent
label/tag modelled as `""`, which is falsy exactly like Python `None` wherever
these fields are tested). -/
structure Item where
  label : String
  gaap : String
  values : ODict PyVal
deriving Repr, DecidableEq

/-- One section of a period document: `{section, gaap, items}`. -/
structure Sect where
  gaap : String
  sectionLabel : String
  items : List Item
deriving Repr, DecidableEq

/-- A single-period statement document: `{periods, sections}`; `sections` is
an `Option` so that a document missing the `sections` key is expressible. -/
structure Stmt where
  periods : List String
  sections : Option (List Sect)
deriving Repr, DecidableEq

/-- A flattened row as produced by `flatten_with_positions`. -/
structure Row where
  section_gaap : String
  section_label : String
  item_gaap : String
  item_label : String
  values : ODict PyVal
  position : Nat
deriving Repr, DecidableEq

/-- A unified-catalog entry (payload). -/
structure Payload where
  section_gaap : String
  section_label : String
  item_gaap : String
  item_label : String
  values : ODict PyVal
deriving Repr, DecidableEq

/-- `flatten_with_positions`: normalizes (and reassigns) the document's
`periods`, then flattens sections into rows with per-section positions.  The
snd component is the document as left behind by the call (Python mutates the
argument's `periods` field in place; `sections` and their items are untouched).
A document missing `sections` contributes no rows. -/
def flattenWithPositions (stmt : Stmt) : List Row × Stmt :=
  let stmt' := { stmt with periods := stmt.periods.map normalizeYearKey }
  let rows := (stmt.sections.getD []).foldr (fun sec acc =>
    (sec.items.enum.map (fun p =>
      { section_gaap := sec.gaap
        section_label := sec.sectionLabel
        item_gaap := p.2.gaap
        item_label := p.2.label
        values := normalizeValues p.2.values
        position := p.1 : Row })) ++ acc) []
  (rows, stmt')

/-- `_sec_key`: the GAAP tag if truthy, else the normalized label. -/
def secKey (gaap label : String) : String :=
  if gaap ≠ "" then gaap else normalizeLabel label

/-- Section key of a row. -/
def Row.secKeyOf (r : Row) : String := secKey r.section_gaap r.section_label

/-- Section key of a payload. -/
def Payload.secKeyOf (p : Payload) : String := secKey p.section_gaap p.section_label

/-- `_flag_duplicate_section_gaaps_label_only`: walking the rows in order, the
first (stripped) section GAAP fixes the section label for that GAAP; later rows
carrying the same GAAP under a differently-normalized section label have their
`section_gaap` blanked.  (The informational `_force_label_only` flag the Python
code also sets is never read and is not modelled.) -/
def flagDupGo (firstLabelForGaap : ODict String) : List Row → List Row
  | [] => []
  | r :: rest =>
    let g := stripSpaces r.section_gaap
    if g = "" then r :: flagDupGo firstLabelForGaap rest
    else
      let lbl := normalizeLabel r.section_label
      match odGet? firstLabelForGaap g with
      | none => r :: flagDupGo (odSet firstLabelForGaap g lbl) rest
      | some first =>
        if first = lbl then r :: flagDupGo firstLabelForGaap rest
        else { r with section_gaap := "" } :: flagDupGo firstLabelForGaap rest

/-- See `flagDupGo`. -/
def flagDuplicateSectionGaaps (rows : List Row) : List Row := flagDupGo [] rows

/-- `detect_gaap_collisions`, as a membership predicate: a truthy item GAAP tag
appearing on more than one row of the section collides. -/
def isCollidingGaap (sectionRows : List Row) (g : String) : Bool :=
  g ≠ "" && ((sectionRows.filter (fun r => r.item_gaap = g)).length > 1)

-- ---------------------------------------------------------------------------
-- Item matcher (`match_line_items`)
-- ---------------------------------------------------------------------------

/-- The item-shaped view `match_line_items` needs (a flattened row and a
catalog payload both provide it). -/
structure MItem where
  item_gaap : String
  item_label : String
  values : ODict PyVal
deriving Repr, DecidableEq

/-- Item view of a row. -/
def Row.toM (r : Row) : MItem := ⟨r.item_gaap, r.item_label, r.values⟩

/-- Item view of a payload. -/
def Payload.toM (p : Payload) : MItem := ⟨p.item_gaap, p.item_label, p.values⟩

/-- `extract_value` inside `match_line_items`: `v.get("value", v)` on a dict,
identity otherwise (a dict without a `"value"` key yields the dict itself). -/
def extractValue : PyVal → PyVal
  | .vdictV v => v
  | v => v

/-- The membership test `val not in (0, None, "", "0")` (Python `in` uses
`==`; dicts equal none of these). -/
def valExcluded : PyVal → Bool
  | .vnone => true
  | .vnum n => n = 0
  | .vstr s => s = "" || s = "0"
  | _ => false

/-- The inner `normalize_value` of `match_line_items` on a non-`None` value:
`str(v)` with commas and spaces removed, stripped, and a parenthesized numeral
turned into a leading-minus one. -/
def mlNormVal (v : PyVal) : String :=
  let cs := (pyStr v).data.filter (fun c => c ≠ ',' && c ≠ ' ')
  let cs := (cs.dropWhile isWsChar).reverse.dropWhile isWsChar |>.reverse
  match cs with
  | '(' :: rest =>
    match rest.reverse with
    | ')' :: revMid => String.mk ('-' :: revMid.reverse)
    | _ => String.mk cs
  | _ => String.mk cs
where
  isWsChar (c : Char) : Bool := c = ' ' || c = '\t' || c = '\n' || c = '\r'

/-- Collect `{year: normalized value}` over the overlap years, skipping
excluded (empty/zero) values — the `v1`/`v2` construction of
`match_line_items` composed with its normalization step. -/
def valuesForMatch (values : ODict PyVal) (overlapNorm : List String) : ODict String :=
  values.foldl (fun acc p =>
    if overlapNorm.contains p.1 then
      let val := extractValue p.2
      if valExcluded val then acc else odSet acc p.1 (mlNormVal val)
    else acc) []

/-- `match_line_items`: the three-tier waterfall (GAAP tag, label, values). -/
def matchLineItems (i1 i2 : MItem) (overlapYears : List String) (ignoreGaap : Bool) : Bool :=
  if !ignoreGaap && i1.item_gaap ≠ "" && i1.item_gaap = i2.item_gaap then true
  else if normalizeLabel i1.item_label = normalizeLabel i2.item_label then true
  else
    let overlapNorm := overlapYears.map normalizeYearKey
    let v1 := valuesForMatch i1.values overlapNorm
    let v2 := valuesForMatch i2.values overlapNorm
    !v1.isEmpty && !v2.isEmpty && odEquiv v1 v2

/-- Overlap years of two values dicts (`set(keys) & set(keys)`; only
membership is ever used). -/
def overlapYearsOf (a b : ODict PyVal) : List String :=
  (odKeys a).filter (fun y => (odKeys b).contains y)

-- ---------------------------------------------------------------------------
-- Stable sorting (Python `list.sort` / `sorted` are stable)
-- ---------------------------------------------------------------------------

/-- Insert `x` after every element `y` with `le y x` (so later-inserted equal
elements land after earlier ones). -/
def stableInsert {α : Type} (le : α → α → Bool) (x : α) : List α → List α
  | [] => [x]
  | y :: ys => if le y x then y :: stableInsert le x ys else x :: y :: ys

/-- Stable insertion sort: processing the input left to right and inserting
after equals reproduces Python's stable sort for a total preorder `le`. -/
def stableSort {α : Type} (le : α → α → Bool) (l : List α) : List α :=
  l.foldl (fun acc x => stableInsert le x acc) []

-- ---------------------------------------------------------------------------
-- Section aligner
-- ---------------------------------------------------------------------------

/-- `_same_section_gate`: GAAP tags equal (first one truthy) or normalized
labels equal. -/
def sameSectionGate (g1 l1 g2 l2 : String) : Bool :=
  (g1 ≠ "" && g1 = g2) || (normalizeLabel l1 = normalizeLabel l2)

/-- `_list_unified_sections`: section keys of the catalog in insertion order,
each with the (gaap, label) of the first payload carrying it. -/
def listUnifiedSections (unified : ODict Payload) : List (String × String × String) :=
  unified.foldl (fun acc kp =>
    let sk := kp.2.secKeyOf
    if acc.any (fun t => t.1 = sk) then acc
    else acc ++ [(sk, kp.2.section_gaap, kp.2.section_label)]) []

/-- `_candidate_sections_in_order`: section keys of a filing's rows in
first-appearance order, with the first row's (gaap, label). -/
def candidateSectionsInOrder (rows : List Row) : List (String × String × String) :=
  rows.foldl (fun acc r =>
    let sk := r.secKeyOf
    if acc.any (fun t => t.1 = sk) then acc
    else acc ++ [(sk, r.section_gaap, r.section_label)]) []

/-- `_build_greedy_section_map`: first-fit one-to-one assignment of candidate
sections to catalog sections through the same-section gate. -/
def greedySecStep (usecs : List (String × String × String))
    (st : List String × ODict (Option String)) (c : String × String × String) :
    List String × ODict (Option String) :=
  match usecs.find? (fun u =>
      !st.1.contains u.1 && sameSectionGate u.2.1 u.2.2 c.2.1 c.2.2) with
  | some u => (u.1 :: st.1, odSet st.2 c.1 (some u.1))
  | none => (st.1, odSet st.2 c.1 none)

/-- See `greedySecStep`: the fold over the candidate sections. -/
def buildGreedySectionMap (unified : ODict Payload) (rows : List Row) :
    ODict (Option String) :=
  ((candidateSectionsInOrder rows).foldl
    (greedySecStep (listUnifiedSections unified))
    (([] : List String), ([] : ODict (Option String)))).2

/-- `_build_unified_section_index` restricted to one key: the catalog payloads
whose section key is `sk`, in catalog order. -/
def unifiedBySec (unified : ODict Payload) (sk : String) : List Payload :=
  (unified.map Prod.snd).filter (fun p => p.secKeyOf = sk)

/-- The keys of `_build_unified_section_index`, in first-appearance order. -/
def unifiedSecKeysInOrder (unified : ODict Payload) : List String :=
  (listUnifiedSections unified).map (fun t => t.1)

/-- `_build_greedy_item_map`: walking the candidate rows in order, pin each to
the first unused catalog item of the bound section that matches via the
waterfall; returns `{row index -> unified key}`. -/
def buildGreedyItemMap (unified : ODict Payload) (allowedSk : Option String)
    (sectionRows : List Row) : List (Nat × String) :=
  match allowedSk with
  | none => []
  | some ask =>
    let pool := unified.filter (fun kp => kp.2.secKeyOf = ask)
    (sectionRows.enum.foldl (fun st p =>
      let ig := isCollidingGaap sectionRows p.2.item_gaap
      match pool.find? (fun kp => !st.1.contains kp.1 &&
          matchLineItems p.2.toM kp.2.toM (overlapYearsOf p.2.values kp.2.values) ig) with
      | some kp => (kp.1 :: st.1, st.2 ++ [(p.1, kp.1)])
      | none => st)
      (([] : List String), ([] : List (Nat × String)))).2

-- ---------------------------------------------------------------------------
-- Similarity fallback (`_apply_fallback_section_matching`) — present in the
-- source but never invoked by `build_unified_catalog`
-- ---------------------------------------------------------------------------

/-- Number of candidate rows that match some item of the given catalog
section via the waterfall (the `matched_items` count of the fallback). -/
def fallbackMatchCount (candidateRows : List Row) (existingItems : List Payload) : Nat :=
  (candidateRows.filter (fun cand =>
    let ig := isCollidingGaap candidateRows cand.item_gaap
    existingItems.any (fun ex =>
      matchLineItems cand.toM ex.toM (overlapYearsOf cand.values ex.values) ig))).length

/-- An exact non-negative fraction (Python's float ratio arithmetic idealized
as exact rational comparison; comparisons are by cross-multiplication, so the
denominator is never zero here — an empty candidate section gets ratio
`0/1`). -/
structure Frac where
  num : Nat
  den : Nat
deriving Repr, DecidableEq

/-- Fraction `≤` by cross-multiplication. -/
def fracLe (a b : Frac) : Bool := a.num * b.den ≤ b.num * a.den

/-- Fraction `<` by cross-multiplication. -/
def fracLt (a b : Frac) : Bool := a.num * b.den < b.num * a.den

/-- The match fraction of a candidate section against a catalog section
(`0` for an empty candidate). -/
def fallbackRatio (unified : ODict Payload) (candidateRows : List Row) (esk : String) :
    Frac :=
  let m := fallbackMatchCount candidateRows (unifiedBySec unified esk)
  if candidateRows.length = 0 then ⟨0, 1⟩ else ⟨m, candidateRows.length⟩

/-- One scan step of the fallback's best-match selection. -/
def bestFallbackStep (unified : ODict Payload) (claimed : List (Option String))
    (candidateRows : List Row) (thr : Frac) (st : Option String × Frac)
    (esk : String) : Option String × Frac :=
  if claimed.contains (some esk) then st
  else
    let r := fallbackRatio unified candidateRows esk
    if fracLe thr r && fracLt st.2 r then ((some esk : Option String), r) else st

/-- The best-match selection of the fallback for one unmatched candidate:
scan the still-unclaimed catalog sections in order, keeping the first section
realizing each strictly-higher ratio that meets the threshold. -/
def bestFallbackFor (unified : ODict Payload) (claimed : List (Option String))
    (candidateRows : List Row) (thr : Frac) : Option String :=
  ((unifiedSecKeysInOrder unified).foldl
    (bestFallbackStep unified claimed candidateRows thr)
    ((none : Option String), (⟨0, 1⟩ : Frac))).1

/-- One candidate step of `_apply_fallback_section_matching`. -/
def fallbackStep (unified : ODict Payload) (rows : List Row) (thr : Frac)
    (updated : ODict (Option String)) (c : String × Option String) :
    ODict (Option String) :=
  match c.2 with
  | some _ => updated
  | none =>
    match bestFallbackFor unified (updated.map Prod.snd)
        (rows.filter (fun r => r.secKeyOf = c.1)) thr with
    | some best => odSet updated c.1 (some best)
    | none => updated

/-- `_apply_fallback_section_matching` (default threshold `0.5`): fill in the
entries of the greedy section map that are `none`, binding each to its best
unclaimed catalog section when the best ratio meets the threshold. -/
def applyFallbackSectionMatching (unified : ODict Payload) (rows : List Row)
    (greedySecMap : ODict (Option String)) (thr : Frac) : ODict (Option String) :=
  greedySecMap.foldl (fallbackStep unified rows thr) greedySecMap

-- ---------------------------------------------------------------------------
-- Presence reconciler (`zero_out_overlapping_years_for_new_items`)
-- ---------------------------------------------------------------------------

/-- One period-key step of the authoritative-filing map: first filing wins. -/
def y2aKeyStep (fy : String) (m : ODict String) (y : String) : ODict String :=
  if odHas m y then m else odSet m y fy

/-- One row step of the authoritative-filing map. -/
def y2aRowStep (fy : String) (m : ODict String) (r : Row) : ODict String :=
  (odKeys r.values).foldl (y2aKeyStep fy) m

/-- One filing step of the authoritative-filing map. -/
def y2aFilingStep (flatAll : ODict (List Row)) (m : ODict String)
    (fy : String) : ODict String :=
  ((odGet? flatAll fy).getD []).foldl (y2aRowStep fy) m

/-- Step 1 of the zero-out pass: map each period key to its authoritative
filing — the first filing, in newest-first order, whose rows carry that key. -/
def buildYearToAuth (flatAll : ODict (List Row)) (yearsSorted : List String) :
    ODict String :=
  yearsSorted.foldl (y2aFilingStep flatAll) []

/-- Rows of one filing under one section key (the `filing_sections` lookup). -/
def authSectionItems (flatAll : ODict (List Row)) (fy : String) (sk : String) :
    List Row :=
  ((odGet? flatAll fy).getD []).filter (fun r => r.secKeyOf = sk)

/-- The zero-out unwrap: `v.get("value")` on a dict (no default), identity
otherwise. -/
def unwrapZ : PyVal → PyVal
  | .vdictV v => v
  | .vdictNoV => .vnone
  | v => v

/-- The zero-out `normalize_value`: `None` for `None`/numeric zero, otherwise
the usual string cleanup. -/
def zNormVal : PyVal → Option String
  | .vnone => none
  | .vnum n => if n = 0 then none else some (mlNormVal (.vnum n))
  | v => some (mlNormVal v)

/-- The zero-out waterfall for one catalog entry, one period key (with current
value `curVal`) and one authoritative row: GAAP tags both truthy and equal, or
normalized labels both non-empty and equal, or normalized single-period values
both truthy/non-empty and equal. -/
def zMatchItem (payload : Payload) (year : String) (curVal : PyVal) (authItem : Row) : Bool :=
  (payload.item_gaap ≠ "" && authItem.item_gaap ≠ "" &&
    payload.item_gaap = authItem.item_gaap) ||
  (let ul := normalizeLabel payload.item_label
   let al := normalizeLabel authItem.item_label
   ul ≠ "" && al ≠ "" && ul = al) ||
  (let av := (odGet? authItem.values year).getD .vnone
   pyTruthy curVal && pyTruthy av &&
     (match zNormVal (unwrapZ curVal), zNormVal (unwrapZ av) with
      | some s1, some s2 => s1 ≠ "" && s2 ≠ "" && s1 = s2
      | _, _ => false))

/-- The zero-out update for one period key of one entry. -/
def zeroYearStep (flatAll : ODict (List Row)) (y2a : ODict String) (p : Payload)
    (vals : ODict PyVal) (year : String) : ODict PyVal :=
  match odGet? y2a year with
  | none => vals
  | some authFy =>
    let items := authSectionItems flatAll authFy p.secKeyOf
    let cur := (odGet? vals year).getD .vnone
    if items.isEmpty then
      (if pyNeZero cur then odSet vals year (.vnum 0) else vals)
    else if items.any (fun it => zMatchItem p year cur it) then vals
    else (if pyNeZero cur then odSet vals year (.vnum 0) else vals)

/-- Zero-out pass over one entry: every period key the entry holds whose
authoritative filing does not confirm the item is forced to `0.0`. -/
def zeroOutPayload (flatAll : ODict (List Row)) (y2a : ODict String) (p : Payload) :
    Payload :=
  { p with values := (odKeys p.values).foldl (zeroYearStep flatAll y2a p) p.values }

/-- `zero_out_overlapping_years_for_new_items` (in-place mutation modelled as
a map over the catalog). -/
def zeroOutOverlappingYears (unified : ODict Payload) (flatAll : ODict (List Row))
    (yearsSorted : List String) : ODict Payload :=
  let y2a := buildYearToAuth flatAll yearsSorted
  unified.map (fun kp => (kp.1, zeroOutPayload flatAll y2a kp.2))

-- ---------------------------------------------------------------------------
-- Catalog orderer helpers
-- ---------------------------------------------------------------------------

/-- The concatenation of all rows' value-key lists over all filings. -/
def allValueKeys (flatAll : ODict (List Row)) : List String :=
  flatAll.foldl (fun acc p =>
    p.2.foldl (fun acc r => acc ++ odKeys r.values) acc) []

/-- First-occurrence-keeping deduplication (the `set` of the collection; the
sort makes the order canonical). -/
def dedupFirst (l : List String) : List String :=
  l.foldl (fun acc x => if acc.contains x then acc else acc ++ [x]) []

/-- `_collect_all_target_years`: the union of all normalized period keys over
all rows of all filings, as a sorted duplicate-free list (`sorted(set(...))`). -/
def collectAllTargetYears (flatAll : ODict (List Row)) : List String :=
  stableSort strLeB (dedupFirst (allValueKeys flatAll))

/-- The per-filing value-key lists of a filings dict — the part of it the
target-year collection depends on. -/
def valueKeyLists (d : ODict (List Row)) : List (String × List (List String)) :=
  d.map (fun p => (p.1, p.2.map (fun r => odKeys r.values)))

/-- One target-year step of `_pad_missing_years_in_mapping`: insert `0.0`
when the year is missing or `None`. -/
def padYearStep (vals : ODict PyVal) (y : String) : ODict PyVal :=
  match odGet? vals y with
  | none => odSet vals y (.vnum 0)
  | some .vnone => odSet vals y (.vnum 0)
  | some _ => vals

/-- `_pad_missing_years_in_mapping`: give every entry an explicit value for
every target year, inserting `0.0` for missing or `None` values. -/
def padMissingYears (mapping : ODict Payload) (targetYears : List String) :
    ODict Payload :=
  mapping.map (fun kp =>
    (kp.1, { kp.2 with values := targetYears.foldl padYearStep kp.2.values }))

/-- Python `s.split("|")`. -/
def splitPipeGo (cur : List Char) : List Char → List String
  | [] => [String.mk cur.reverse]
  | c :: rest =>
    if c = '|' then String.mk cur.reverse :: splitPipeGo [] rest
    else splitPipeGo (c :: cur) rest

/-- Python `s.split("|")`. -/
def splitPipe (s : String) : List String := splitPipeGo [] s.data

/-- Join string pieces with `"|"` (inverse of a split). -/
def joinPipe : List String → String
  | [] => ""
  | [s] => s
  | s :: rest => s ++ "|" ++ joinPipe rest

/-- Python `s.startswith(p)`. -/
def strStarts (p s : String) : Bool := p.data.isPrefixOf s.data

/-- `_parse_unified_key`: `"review_needed|sec|label"` splits at the first two
pipes, any other key right-splits at its last pipe; a key with no pipe falls
back to `("", key)`.  (On a `review_needed|` key with no second pipe the
Python unpacking would raise; such keys cannot arise from the builder, and the
fallback result is used here.) -/
def parseUnifiedKey (orig : String) : String × String :=
  if strStarts "review_needed|" orig then
    match splitPipe orig with
    | _ :: sec :: rest => if rest = [] then ("", orig) else (sec, joinPipe rest)
    | _ => ("", orig)
  else
    match (splitPipe orig).reverse with
    | [] => ("", orig)
    | [_] => ("", orig)
    | last :: revInit => (last, joinPipe revInit.reverse)

/-- The `_item_identity_from_unified_key` closure of the orderer: parse the
stored key; if its section part disagrees with the current section key,
reconstruct the identity from the payload instead. -/
def itemIdentityFromUnifiedKey (sk : String) (key : String) (p : Payload) : String :=
  let pr := parseUnifiedKey key
  if pr.1 ≠ "" && pr.1 ≠ sk then
    (if p.item_gaap ≠ "" then p.item_gaap else normalizeLabel p.item_label)
  else pr.2

/-- `_item_identity_for_positions`: normalized label when the row's GAAP tag
collides inside its section, else the tag or the normalized label. -/
def itemIdentityForPositions (sectionRows : List Row) (r : Row) : String :=
  if isCollidingGaap sectionRows r.item_gaap then normalizeLabel r.item_label
  else if r.item_gaap ≠ "" then r.item_gaap else normalizeLabel r.item_label

/-- The positions ledger `positions_map`, keyed by `(section key, item
identity)`, holding `{year: position}`. -/
abbrev PosMap := List ((String × String) × ODict Nat)

/-- Update of the positions ledger. -/
def pmSet (m : PosMap) (k : String × String) (yr : String) (pos : Nat) : PosMap :=
  match m with
  | [] => [(k, [(yr, pos)])]
  | (k', d) :: rest =>
    if k' = k then (k, odSet d yr pos) :: rest else (k', d) :: pmSet rest k yr pos

/-- Lookup of the positions ledger (`positions_map.get((sk, ik), {})`). -/
def pmGet (m : PosMap) (k : String × String) : ODict Nat :=
  ((m.find? (fun q => q.1 = k)).map Prod.snd).getD []

/-- Build the positions ledger over all filings, newest first. -/
def buildPositionsMap (flatAll : ODict (List Row)) (yearsSorted : List String) :
    PosMap :=
  yearsSorted.foldl (fun pm yr =>
    let rows := (odGet? flatAll yr).getD []
    rows.foldl (fun pm r =>
      let sk := r.secKeyOf
      let ik := itemIdentityForPositions (rows.filter (fun q => q.secKeyOf = sk)) r
      pmSet pm (sk, ik) yr r.position) pm) []

/-- Section order of the latest filing: section key to first-appearance
index. -/
def latestSectionOrder (latestRows : List Row) : ODict Nat :=
  latestRows.foldl (fun m r =>
    if odHas m r.secKeyOf then m else odSet m r.secKeyOf m.length) []

/-- A spine/older-only candidate of the orderer: unified key, payload and the
position it was assigned. -/
structure SpineEnt where
  key : String
  payload : Payload
  pos : Nat
deriving Repr, DecidableEq

/-- Comparison key of the latest-items sort: `(position, normalized label)`. -/
def spineLe (a b : SpineEnt) : Bool :=
  (a.pos < b.pos) ||
  (a.pos = b.pos &&
    strLeB (normalizeLabel a.payload.item_label) (normalizeLabel b.payload.item_label))

/-- An element of the final per-section `sortable` list. -/
structure SortEnt where
  anchor : Nat
  flag : Nat
  lbl : String
  key : String
  payload : Payload
deriving Repr, DecidableEq

/-- Comparison key of the final per-section sort:
`(anchor index, older-only flag, normalized label)`. -/
def sortEntLe (a b : SortEnt) : Bool :=
  (a.anchor < b.anchor) ||
  (a.anchor = b.anchor &&
    ((a.flag < b.flag) || (a.flag = b.flag && strLeB a.lbl b.lbl)))

/-- `anchor_index_for_pos`: index of the first spine position at least `p`,
or the spine length when `p` exceeds every spine position. -/
def anchorIndexForPos (spinePositions : List Nat) (p : Nat) : Nat :=
  match spinePositions.findIdx? (fun sp => p ≤ sp) with
  | some i => i
  | none => spinePositions.length

/-- The spine: latest-period items sorted by `(position, normalized label)`. -/
def spineOf (latestItems : List SpineEnt) : List SpineEnt :=
  stableSort spineLe latestItems

/-- The spine's position list (`spine_positions`). -/
def spinePosOf (latestItems : List SpineEnt) : List Nat :=
  (spineOf latestItems).map (fun t => t.pos)

/-- The `sortable` tuple of an older-only item: anchored at the first spine
position at least its own, flagged `0`. -/
def olderEnt (sp : List Nat) (t : SpineEnt) : SortEnt :=
  { anchor := anchorIndexForPos sp t.pos, flag := 0,
    lbl := normalizeLabel t.payload.item_label,
    key := t.key, payload := t.payload }

/-- The `sortable` tuple of a spine item: anchored at its own slot, flagged
`1`. -/
def spineEnt (sp : List Nat) (t : SpineEnt) : SortEnt :=
  { anchor := sp.findIdx (fun q => q = t.pos), flag := 1,
    lbl := normalizeLabel t.payload.item_label,
    key := t.key, payload := t.payload }

/-- The per-section `sortable` list: older-only tuples first, then the spine
tuples. -/
def sortableOf (latestItems olderOnly : List SpineEnt) : List SortEnt :=
  olderOnly.map (olderEnt (spinePosOf latestItems))
  ++ (spineOf latestItems).map (spineEnt (spinePosOf latestItems))

/-- The per-section ordering of the Catalog Orderer: sort the latest-period
items into the spine, anchor the older-only items, and stably sort by
`(anchor, flag, label)`. -/
def orderSectionItems (latestItems olderOnly : List SpineEnt) :
    List (String × Payload) :=
  (stableSort sortEntLe (sortableOf latestItems olderOnly)).map
    (fun e => (e.key, e.payload))

-- ---------------------------------------------------------------------------
-- Catalog builder (`build_unified_catalog`)
-- ---------------------------------------------------------------------------

/-- First key of a values dict (`list(d.keys())[0]`; `""` stands in for the
unreachable empty case, where Python would raise). -/
def firstKeyOf (vals : ODict PyVal) : String :=
  match vals with
  | [] => ""
  | p :: _ => p.1

/-- The "newer filing" test guarding value overwrites:
`int(normalize_year_key(yr[:4])) > int(normalize_year_key(first key))`.
`yr` is the leaked loop variable (the last key of `years_json`), not the
period currently being merged. -/
def newerCheck (staleYr : String) (vals : ODict PyVal) : Except String Bool := do
  let a ← pyIntE (normalizeYearKey (String.mk (staleYr.data.take 4)))
  let b ← pyIntE (normalizeYearKey (firstKeyOf vals))
  pure (b < a)

/-- `cleaned_values`: `None` values become `0.0` at entry creation. -/
def cleanedValues (values : ODict PyVal) : ODict PyVal :=
  values.foldl (fun acc p =>
    odSet acc p.1 (if p.2 = .vnone then .vnum 0 else p.2)) []

/-- The item-key half of a new catalog key: normalized label when the row's
tag collides, else tag or normalized label. -/
def itmKeyOf (ignoreGaap : Bool) (r : Row) : String :=
  if ignoreGaap then normalizeLabel r.item_label
  else if r.item_gaap ≠ "" then r.item_gaap else normalizeLabel r.item_label

/-- One merge block over a matched entry's values (the source runs two
near-identical copies; `clean` distinguishes them: the second coerces `None`
to `0.0` before writing). -/
def mergeValsBlock (staleYr : String) (clean : Bool) (vals rowVals : ODict PyVal) :
    Except String (ODict PyVal) :=
  rowVals.foldlM (fun acc p => do
    let v := if clean then (if p.2 = .vnone then PyVal.vnum 0 else p.2) else p.2
    if odHas acc p.1 then do
      let newer ← newerCheck staleYr acc
      if newer then pure (odSet acc p.1 v) else pure acc
    else pure (odSet acc p.1 v)) vals

/-- The payload a row creates. -/
def rowPayload (r : Row) : Payload :=
  { section_gaap := r.section_gaap, section_label := r.section_label,
    item_gaap := r.item_gaap, item_label := r.item_label,
    values := cleanedValues r.values }

/-- The pinned-and-re-checked match of one row: the preselected unified key
(present only when the section is bound), confirmed by the same-section gate
and the waterfall. -/
def rowMatchedKey (sectionRows : List Row) (allowedSk : Option String)
    (greedyItemMap : List (Nat × String)) (unified : ODict Payload)
    (idxRow : Nat × Row) : Option String :=
  let row := idxRow.2
  let ig := isCollidingGaap sectionRows row.item_gaap
  let preKey : Option String :=
    match allowedSk with
    | none => none
    | some _ => (greedyItemMap.find? (fun q => q.1 = idxRow.1)).map Prod.snd
  match preKey with
  | none => none
  | some pk =>
    match odGet? unified pk with
    | none => none
    | some existing =>
      if ((existing.section_gaap ≠ "" && existing.section_gaap = row.section_gaap) ||
          (normalizeLabel existing.section_label = normalizeLabel row.section_label)) &&
          matchLineItems row.toM existing.toM
            (overlapYearsOf existing.values row.values) ig then
        some pk
      else none

/-- One of the two (near-identical, both executed) merge-or-create blocks of
the source: a matched non-`review_needed` key has the row's values merged into
its entry; an unmatched row creates (or re-creates) its entry. -/
def mergeOrCreate (staleYr sec : String) (clean : Bool) (ig : Bool)
    (matchedKey : Option String) (unified : ODict Payload) (row : Row) :
    Except String (ODict Payload) :=
  match matchedKey with
  | some mk =>
    if strStarts "review_needed" mk then pure unified
    else
      match odGet? unified mk with
      | none => pure unified
      | some pl => do
        let vals ← mergeValsBlock staleYr clean pl.values row.values
        pure (odSet unified mk { pl with values := vals })
  | none =>
    pure (odSet unified (itmKeyOf ig row ++ "|" ++ sec) (rowPayload row))

/-- Processing of a single row inside one section of one filing: determine the
pinned match, re-check the same-section gate and the waterfall, then run the
two (duplicated) merge-or-create blocks of the source, the second reading the
values the first wrote. -/
def processRow (staleYr : String) (sec : String) (sectionRows : List Row)
    (allowedSk : Option String) (greedyItemMap : List (Nat × String))
    (unified : ODict Payload) (idxRow : Nat × Row) :
    Except String (ODict Payload) :=
  (mergeOrCreate staleYr sec false
      (isCollidingGaap sectionRows idxRow.2.item_gaap)
      (rowMatchedKey sectionRows allowedSk greedyItemMap unified idxRow)
      unified idxRow.2).bind
    (fun u1 => mergeOrCreate staleYr sec true
      (isCollidingGaap sectionRows idxRow.2.item_gaap)
      (rowMatchedKey sectionRows allowedSk greedyItemMap unified idxRow)
      u1 idxRow.2)

/-- One step of the section-metadata rewrite: a candidate section bound to a
different catalog section has its rows' section metadata overwritten by the
target's. -/
def rewriteStep (unified : ODict Payload) (rows : List Row)
    (c : String × Option String) : List Row :=
  match c.2 with
  | none => rows
  | some target =>
    if c.1 = target then rows
    else
      match unifiedBySec unified target with
      | [] => rows
      | tp :: _ =>
        rows.map (fun r =>
          if r.secKeyOf = c.1 then
            { r with section_gaap := tp.section_gaap,
                     section_label := tp.section_label }
          else r)

/-- See `rewriteStep`: the sequential fold over the greedy map. -/
def rewriteSectionMeta (unified : ODict Payload) (greedyMap : ODict (Option String))
    (rows : List Row) : List Row :=
  greedyMap.foldl (rewriteStep unified) rows

/-- Section keys of a filing in first-appearance order (the iteration order of
`section_groups`). -/
def sectionGroupKeys (rows : List Row) : List String :=
  rows.foldl (fun acc r =>
    if acc.contains r.secKeyOf then acc else acc ++ [r.secKeyOf]) []

/-- The rows of one (pre-rewrite) section group, as they look after the
metadata rewrite (Python's groups hold the mutated row objects). -/
def groupRowsAfterRewrite (origRows newRows : List Row) (sec : String) : List Row :=
  ((origRows.zip newRows).filter (fun pr => pr.1.secKeyOf = sec)).map Prod.snd

/-- Processing of one section group of one filing.  The greedy item map is
computed once, against the catalog as it stands when the section's processing
starts. -/
def processSection (staleYr : String) (greedySecMap : ODict (Option String))
    (origRows newRows : List Row) (unified : ODict Payload) (sec : String) :
    Except String (ODict Payload) :=
  (groupRowsAfterRewrite origRows newRows sec).enum.foldlM
    (processRow staleYr sec (groupRowsAfterRewrite origRows newRows sec)
      ((odGet? greedySecMap sec).getD none)
      (buildGreedyItemMap unified ((odGet? greedySecMap sec).getD none)
        (groupRowsAfterRewrite origRows newRows sec)))
    unified

/-- The merge of one filing into the accumulated catalog: build the greedy
section map from the pre-rewrite rows, rewrite bound sections' metadata, then
process the section groups in first-appearance order.  Returns the updated
catalog together with the filing's (mutated) rows. -/
def mergeFiling (staleYr : String) (unified : ODict Payload) (rows : List Row) :
    Except String (ODict Payload × List Row) :=
  ((sectionGroupKeys rows).foldlM
    (processSection staleYr (buildGreedySectionMap unified rows) rows
      (rewriteSectionMeta unified (buildGreedySectionMap unified rows) rows))
    unified).bind
    (fun unified' => .ok (unified',
      rewriteSectionMeta unified (buildGreedySectionMap unified rows) rows))

/-- The latest-year section metadata patch applied after the zero-out pass. -/
def patchLatestSectionLabels (unified : ODict Payload) (latestRows : List Row) :
    ODict Payload :=
  let latestLabels : ODict (String × String) :=
    latestRows.foldl (fun m r =>
      if odHas m r.secKeyOf then m
      else odSet m r.secKeyOf (r.section_label, r.section_gaap)) []
  unified.map (fun kp =>
    match odGet? latestLabels kp.2.secKeyOf with
    | some ll => (kp.1, { kp.2 with section_label := ll.1, section_gaap := ll.2 })
    | none => kp)

/-- The `by_section` grouping of the orderer: catalog entries grouped by
section key, in first-appearance order. -/
def bySectionOf (unified : ODict Payload) : ODict (List (String × Payload)) :=
  unified.foldl (fun bs kp =>
    let sk := kp.2.secKeyOf
    match odGet? bs sk with
    | some l => odSet bs sk (l ++ [kp])
    | none => odSet bs sk [kp]) []

/-- The orderer's split of one section's entries into latest-period items
(with their latest position) and older-only items (with their most recent
known position, `10 ^ 9` when none). -/
def splitSpine (positionsMap : PosMap) (latestYear : String)
    (yearsSorted : List String) (sk : String)
    (items : List (String × Payload)) : List SpineEnt × List SpineEnt :=
  items.foldl (fun st kp =>
    let ik := itemIdentityFromUnifiedKey sk kp.1 kp.2
    let posByYear := pmGet positionsMap (sk, ik)
    match odGet? posByYear latestYear with
    | some p => (st.1 ++ [⟨kp.1, kp.2, p⟩], st.2)
    | none =>
      let pos := (yearsSorted.findSome? (fun y => odGet? posByYear y)).getD (10 ^ 9)
      (st.1, st.2 ++ [⟨kp.1, kp.2, pos⟩])) ([], [])

/-- One section's emission step of the orderer: order the section's items
around the spine, append them to the output, and pad every emitted entry so
far with the full target-year set. -/
def orderStep (bySection : ODict (List (String × Payload))) (positionsMap : PosMap)
    (latestYear : String) (yearsSorted : List String) (tgt : List String)
    (ordered : ODict Payload) (sk : String) : ODict Payload :=
  let items := (odGet? bySection sk).getD []
  let split := splitSpine positionsMap latestYear yearsSorted sk items
  let emitted := orderSectionItems split.1 split.2
  padMissingYears (emitted.foldl (fun o e => odSet o e.1 e.2) ordered) tgt

/-- The ordering phase: group the catalog by section key, order sections by
the latest filing's section order, order items around the latest-period spine,
and pad every emitted entry with the full target-year set. -/
def orderCatalog (unified : ODict Payload) (flatAll : ODict (List Row))
    (positionsMap : PosMap) (latestOrder : ODict Nat)
    (latestYear : String) (yearsSorted : List String) : ODict Payload :=
  let bySection := bySectionOf unified
  let sectionKeysSorted := stableSort
    (fun a b => decide (((odGet? latestOrder a).getD (10 ^ 9)) ≤
      ((odGet? latestOrder b).getD (10 ^ 9)))) (odKeys bySection)
  sectionKeysSorted.foldl
    (orderStep bySection positionsMap latestYear yearsSorted
      (collectAllTargetYears flatAll)) []

/-- The `flat_all` mapping: every filing's statement flattened (with the
duplicate-section flag pass), keyed by period. -/
def flatAllOf (yearsJson : ODict Stmt) : ODict (List Row) :=
  yearsJson.foldl (fun fa p =>
    odSet fa p.1 (flagDuplicateSectionGaaps (flattenWithPositions p.2).1)) []

/-- `build_unified_catalog`: the whole reconciliation pipeline for one
statement type.  `statementType` is accepted, as in the source, but unused by
the active code.  Raising is modelled by `Except`: the only reachable failure
points are an empty input and `int()` on a key that does not normalize to a
number. -/
def buildUnifiedCatalog (yearsJson : ODict Stmt) (statementType : String) :
    Except String (ODict Payload) :=
  let yearsSorted := stableSort (fun a b => strLeB b a) (odKeys yearsJson)
  match yearsSorted with
  | [] => .error "IndexError"
  | latestYear :: _ => do
    let flatAll : ODict (List Row) := flatAllOf yearsJson
    let positionsMap := buildPositionsMap flatAll yearsSorted
    let latestOrder := latestSectionOrder ((odGet? flatAll latestYear).getD [])
    let staleYr := (odKeys yearsJson).getLast?.getD ""
    let st ← flatAll.foldlM (fun (st : ODict Payload × ODict (List Row)) p => do
      let merged ← mergeFiling staleYr st.1 p.2
      pure (merged.1, odSet st.2 p.1 merged.2)) (([] : ODict Payload), flatAll)
    let unified1 := zeroOutOverlappingYears st.1 st.2 yearsSorted
    let unified2 := patchLatestSectionLabels unified1 ((odGet? st.2 latestYear).getD [])
    pure (orderCatalog unified2 st.2 positionsMap latestOrder latestYear yearsSorted)

-- ---------------------------------------------------------------------------
-- Aggregate entry point (`build_unified_catalog_all_statements`)
-- ---------------------------------------------------------------------------

/-- One statement type's per-period document as seen by the wrapper: an
optional `error` field, an optional `source_url` field, and the statement
itself. -/
structure StmtDoc where
  errorField : Option String
  sourceUrl : Option String
  doc : Stmt
deriving Repr, DecidableEq

/-- A value of the wrapper's result dict: an ordered catalog or a source-URL
list. -/
inductive ResVal where
  | cat (c : ODict Payload)
  | urls (u : List String)
deriving Repr, DecidableEq

/-- The statement types the wrapper processes, in order. -/
def statementTypes : List String :=
  ["income_statement", "balance_sheet", "cash_flow_statement"]

/-- One period step of the wrapper's collection loop for one statement type:
a period whose document carries an `error` field is skipped; a truthy, unseen
`source_url` value is accumulated in order. -/
def collectStep (stmtType : String) (st : ODict Stmt × List String)
    (p : String × ODict StmtDoc) : ODict Stmt × List String :=
  match odGet? p.2 stmtType with
  | none => st
  | some sd =>
    if sd.errorField.isSome then st
    else
      (odSet st.1 p.1 sd.doc,
       match sd.sourceUrl with
       | some u => if u ≠ "" && !st.2.contains u then st.2 ++ [u] else st.2
       | none => st.2)

/-- The inner collection loop of the wrapper for one statement type. -/
def collectStmtYears (years : ODict (ODict StmtDoc)) (stmtType : String) :
    ODict Stmt × List String :=
  years.foldl (collectStep stmtType) (([] : ODict Stmt), ([] : List String))

/-- One statement type's branch of the wrapper: no data gives an empty catalog
and an empty URL list; a successful build gives the catalog and its URLs; a
raising build is caught and gives an empty catalog only (no URL key). -/
def processStmtType (years : ODict (ODict StmtDoc)) (results : ODict ResVal)
    (stmtType : String) : ODict ResVal :=
  let collected := collectStmtYears years stmtType
  if collected.1.isEmpty then
    odSet (odSet results stmtType (.cat [])) (stmtType ++ "_url") (.urls [])
  else
    match buildUnifiedCatalog collected.1 stmtType with
    | .ok unified =>
      odSet (odSet results stmtType (.cat unified)) (stmtType ++ "_url")
        (.urls collected.2)
    | .error _ => odSet results stmtType (.cat [])

/-- The early-return / top-level-catch result: empty catalogs for all three
statement types (and no URL keys). -/
def emptyAllResults : ODict ResVal :=
  [("income_statement", .cat []), ("balance_sheet", .cat []),
   ("cash_flow_statement", .cat [])]

/-- `build_unified_catalog_all_statements`, taking the `years` mapping (the
`years_json.get("years", {})` of the source; an input without a `years` key is
the empty mapping).  On well-typed input every exception the source can raise
comes from `build_unified_catalog` and is caught per statement type, so the
wrapper is a total function. -/
def buildUnifiedCatalogAllStatements (years : ODict (ODict StmtDoc)) : ODict ResVal :=
  if years.isEmpty then emptyAllResults
  else statementTypes.foldl (processStmtType years) []

/-- The catalog value the wrapper's branch assigns to one statement type,
as a function of that statement type's data alone. -/
def perTypeCat (years : ODict (ODict StmtDoc)) (stmtType : String) : ODict Payload :=
  let sy := (collectStmtYears years stmtType).1
  if sy.isEmpty then []
  else
    match buildUnifiedCatalog sy stmtType with
    | .ok u => u
    | .error _ => []

-- ---------------------------------------------------------------------------
-- Concrete inputs used by closed counterexamples and witnesses
-- ---------------------------------------------------------------------------

/-- Helper: a single-section, blank-GAAP statement document. -/
def mkStmt (periods : List String) (sectionLabel : String)
    (items : List Item) : Stmt :=
  { periods := periods, sections := some [
      { gaap := "", sectionLabel := sectionLabel, items := items } ] }

/-- Helper: a GAAP-less item. -/
def mkItem (label : String) (values : ODict PyVal) : Item :=
  { label := label, gaap := "", values := values }

/-- Recency input: period `2024` records `5` for key `2022`; the strictly
older period `2023`, merged afterwards, carries `7` for the same key. -/
def c1Input : ODict Stmt :=
  [("2024", mkStmt ["2024"] "Ops" [mkItem "Net income" [("2022", .vnum 5)]]),
   ("2023", mkStmt ["2023"] "Ops" [mkItem "Net income" [("2022", .vnum 7)]])]

/-- Period `2024` of the fallback input: section `Current Assets` with two
items. -/
def c2d24 : Stmt := mkStmt ["2024"] "Current Assets"
  [mkItem "Cash" [("2024", .vnum 1)], mkItem "Gold" [("2024", .vnum 2)]]

/-- Period `2023` of the fallback input: a differently-labelled section whose
items all label-match the catalog's `Current Assets` items. -/
def c2d23 : Stmt := mkStmt ["2023"] "Short stuff"
  [mkItem "Cash" [("2023", .vnum 3)], mkItem "Gold" [("2023", .vnum 4)]]

/-- The two-period fallback input. -/
def c2Input : ODict Stmt := [("2024", c2d24), ("2023", c2d23)]

/-- Flattened rows of `c2d24`. -/
def c2Rows24 : List Row := flagDuplicateSectionGaaps (flattenWithPositions c2d24).1

/-- Flattened rows of `c2d23`. -/
def c2Rows23 : List Row := flagDuplicateSectionGaaps (flattenWithPositions c2d23).1

/-- The accumulated catalog after merging period `2024` alone. -/
def c2AfterFirst : ODict Payload :=
  match mergeFiling "2023" [] c2Rows24 with
  | .ok st => st.1
  | .error _ => []

/-- Idempotence input: two blank-GAAP `Cash` items (same catalog key, the
second overwrites the first) followed by a GAAP-tagged `Cash` item (a distinct
key with an equal label). -/
def c5Rows : List Row := flagDuplicateSectionGaaps (flattenWithPositions
  (mkStmt ["2024"] "Ops"
    [mkItem "Cash" [("2020", .vnum 7)],
     mkItem "Cash" [("2021", .vnum 9)],
     { label := "Cash", gaap := "G", values := [("2022", .vnum 3)] }])).1

/-- The catalog after merging `c5Rows` once into an empty catalog. -/
def c5Once : ODict Payload :=
  match mergeFiling "2024" [] c5Rows with
  | .ok st => st.1
  | .error _ => []

/-- The result of merging `c5Rows` a second time. -/
def c5Twice : Except String (ODict Payload × List Row) :=
  mergeFiling "2024" c5Once c5Rows

/-- The catalog after the repeated merge. -/
def c5TwiceUnified : ODict Payload :=
  match c5Twice with
  | .ok st => st.1
  | .error _ => []

/-- The rows as left behind by the repeated merge. -/
def c5TwiceRows : List Row :=
  match c5Twice with
  | .ok st => st.2
  | .error _ => []

/-- Flattener-purity counterexample input: a `periods` entry that is not in
normalized form, and no `sections` key. -/
def c9Stmt : Stmt := { periods := ["2024-06-30"], sections := none }

/-- Python `v == 0` for the values the zero-out pass leaves behind. -/
def pyIsZero : PyVal → Bool
  | .vnum n => n = 0
  | _ => false

/-- Presence-reconciliation witness: the catalog entry carrying a stale value
`50` for period key `2022`. -/
def c4Payload : Payload :=
  { section_gaap := "", section_label := "Ops", item_gaap := "",
    item_label := "Net income",
    values := [("2022", .vnum 50), ("2023", .vnum 9)] }

/-- Presence-reconciliation witness catalog. -/
def c4Unified : ODict Payload := [("net income|ops", c4Payload)]

/-- Presence-reconciliation witness rows: filing `2023` does not carry period
key `2022`; filing `2022` does, but its `Ops` section has no item matching
the entry by any tier. -/
def c4FlatAll : ODict (List Row) :=
  [("2023", [{ section_gaap := "", section_label := "Ops", item_gaap := "",
               item_label := "Net income", values := [("2023", .vnum 9)],
               position := 0 }]),
   ("2022", [{ section_gaap := "", section_label := "Ops", item_gaap := "",
               item_label := "Other", values := [("2022", .vnum 1)],
               position := 0 }])]

/-- Scenario-D payload: a minimal catalog payload with one label. -/
def c7Pl (lbl : String) : Payload :=
  { section_gaap := "", section_label := "S", item_gaap := "",
    item_label := lbl, values := [] }

/-- Scenario-D spine: five latest-period items at positions 0 through 4. -/
def c7Latest : List SpineEnt :=
  [⟨"i0|s", c7Pl "I0", 0⟩, ⟨"i1|s", c7Pl "I1", 1⟩, ⟨"i2|s", c7Pl "I2", 2⟩,
   ⟨"i3|s", c7Pl "I3", 3⟩, ⟨"i4|s", c7Pl "I4", 4⟩]

/-- Scenario-D older-only item at position 7, beyond every spine position. -/
def c7Old : SpineEnt := ⟨"old|s", c7Pl "Old", 7⟩

/-- The single entry of the catalog the builder returns on the
recency-witness input. -/
def c3Entry : String × Payload :=
  ("net income|ops",
   { section_gaap := "", section_label := "Ops", item_gaap := "",
     item_label := "Net income", values := [("2022", .vnum 7)] })

/-- The catalog the builder returns on the recency-witness input. -/
def c3Cat : ODict Payload := [c3Entry]

/-- A well-formed single-section statement for the wrapper inputs. -/
def wStmtOk : Stmt := mkStmt ["2024"] "Ops" [mkItem "Cash" [("2024", .vnum 1)]]

/-- A statement whose period key cannot be parsed as a year, making the
newer-filing `int()` comparison raise during the merge. -/
def wStmtBad : Stmt := mkStmt ["zz"] "Ops" [mkItem "Cash" [("2024", .vnum 1)]]

/-- A well-formed cash-flow statement for the wrapper inputs. -/
def wStmtCf : Stmt := mkStmt ["2024"] "Flows" [mkItem "Op cash" [("2024", .vnum 5)]]

/-- Wrapper input: the income statement only ever appears with an `error`
field; the balance sheet has data whose merge raises; the cash-flow statement
processes normally. -/
def wYears : ODict (ODict StmtDoc) :=
  [("2024", [("income_statement", ⟨some "boom", none, wStmtOk⟩),
             ("balance_sheet", ⟨none, some "u1", wStmtOk⟩),
             ("cash_flow_statement", ⟨none, some "u3", wStmtCf⟩)]),
   ("zz", [("balance_sheet", ⟨none, some "u2", wStmtBad⟩)])]

/-- The successful result of an `Except`-valued computation, if any. -/
def exOk {α : Type} : Except String α → Option α
  | .ok a => some a
  | .error _ => none

/-- Decidable equality for `Except` results (used by closed evaluations). -/
instance exceptDecEq {ε α : Type} [DecidableEq ε] [DecidableEq α] :
    DecidableEq (Except ε α) := fun x y =>
  match x, y with
  | .ok a, .ok b =>
    if h : a = b then .isTrue (by rw [h])
    else .isFalse (fun he => h (Except.ok.inj he))
  | .error e, .error e' =>
    if h : e = e' then .isTrue (by rw [h])
    else .isFalse (fun he => h (Except.error.inj he))
  | .ok _, .error _ => .isFalse (fun he => Except.noConfusion he)
  | .error _, .ok _ => .isFalse (fun he => Except.noConfusion he)

-- ---------------------------------------------------------------------------
-- Generic lemmas about ordered dictionaries and folds
-- ---------------------------------------------------------------------------

theorem odGet?_odSet_self {α : Type} (d : ODict α) (k : String) (v : α) :
    odGet? (odSet d k v) k = some v := by
  induction d with
  | nil => simp [odSet, odGet?]
  | cons p rest ih =>
    by_cases h : p.1 = k
    · simp [odSet, h, odGet?]
    · simpa [odSet, h, odGet?] using ih

theorem odGet?_odSet_ne {α : Type} (d : ODict α) (k k' : String) (v : α)
    (h : k' ≠ k) : odGet? (odSet d k v) k' = odGet? d k' := by
  induction d with
  | nil => simp [odSet, odGet?, Ne.symm h]
  | cons p rest ih =>
    by_cases hp : p.1 = k
    · subst hp
      simp [odSet, odGet?, Ne.symm h]
    · by_cases hp' : p.1 = k'
      · simp [odSet, hp, odGet?, hp', h]
      · simpa [odSet, hp, odGet?, hp'] using ih

theorem odKeys_odSet_of_has {α : Type} (d : ODict α) (k : String) (v : α)
    (h : odHas d k = true) : odKeys (odSet d k v) = odKeys d := by
  induction d with
  | nil => simp [odHas, odGet?] at h
  | cons p rest ih =>
    by_cases hp : p.1 = k
    · simp [odSet, hp, odKeys]
    · have : odHas rest k = true := by
        simpa [odHas, odGet?, hp] using h
      simpa [odSet, hp, odKeys] using congrArg (List.cons p.1) (ih this)

theorem odHas_odSet {α : Type} (d : ODict α) (k k' : String) (v : α) :
    odHas (odSet d k v) k' = (k' = k || odHas d k') := by
  by_cases h : k' = k
  · subst h; simp [odHas, odGet?_odSet_self]
  · simp [odHas, odGet?_odSet_ne d k k' v h, h]

theorem mem_odSet {α : Type} {d : ODict α} {k : String} {v : α} {p : String × α}
    (hp : p ∈ odSet d k v) : p = (k, v) ∨ p ∈ d := by
  induction d with
  | nil => simpa [odSet] using hp
  | cons q rest ih =>
    simp only [odSet] at hp
    by_cases hq : q.1 = k
    · rw [if_pos hq] at hp
      rcases List.mem_cons.mp hp with h | h
      · exact Or.inl h
      · exact Or.inr (List.mem_cons_of_mem _ h)
    · rw [if_neg hq] at hp
      rcases List.mem_cons.mp hp with h | h
      · exact Or.inr (by simp [h])
      · rcases ih h with h' | h'
        · exact Or.inl h'
        · exact Or.inr (List.mem_cons_of_mem _ h')

theorem foldl_invariant {α β : Type} (P : β → Prop) (f : β → α → β)
    (l : List α) (init : β) (h0 : P init)
    (hstep : ∀ b a, a ∈ l → P b → P (f b a)) : P (l.foldl f init) := by
  induction l generalizing init with
  | nil => exact h0
  | cons x xs ih =>
    exact ih _ (hstep _ _ (by simp) h0)
      (fun b a ha hb => hstep b a (by simp [ha]) hb)

theorem foldlM_invariant {α β : Type} (P : β → Prop) (f : β → α → Except String β)
    (l : List α) (init res : β) (h0 : P init)
    (hstep : ∀ b a r, a ∈ l → P b → f b a = .ok r → P r)
    (hres : l.foldlM f init = .ok res) : P res := by
  induction l generalizing init with
  | nil =>
    simp only [List.foldlM_nil, Pure.pure, Except.pure] at hres
    cases hres
    exact h0
  | cons x xs ih =>
    rw [List.foldlM_cons] at hres
    cases hfx : f init x with
    | error e =>
      rw [hfx] at hres
      simp [Bind.bind, Except.bind] at hres
    | ok b =>
      rw [hfx] at hres
      simp only [Bind.bind, Except.bind] at hres
      exact ih _ (hstep _ _ _ (by simp) h0 hfx)
        (fun b' a r ha hb hf => hstep b' a r (by simp [ha]) hb hf) hres


-- ---------------------------------------------------------------------------
-- C1 — recency precedence for value conflicts
-- ---------------------------------------------------------------------------

/-- C1 (code bug): on `c1Input` the value `5` recorded for period key `2022`
while merging period `2024` must, by the claim, survive the later merge of the
strictly older period `2023` (which carries `7` for the same key) — yet the
built catalog holds `7`.  The overwrite guard compares the leaked loop
variable `yr` (the last input key, `2023`) against the first key of the
entry's values dict (`2022`) instead of comparing the merging period with the
period that recorded the value. -/
theorem c1_recency_bug_eval :
    (exOk (buildUnifiedCatalog c1Input "income_statement")).map
      (fun cat => (odGet? cat "net income|ops").map
        (fun p => odGet? p.values "2022"))
    = some (some (some (.vnum 7))) ∧ PyVal.vnum 7 ≠ PyVal.vnum 5 :=
  ⟨by decide, by decide⟩

-- ---------------------------------------------------------------------------
-- C6 — the label tier has no non-emptiness guard
-- ---------------------------------------------------------------------------

/-- C6 counterexample: two items whose labels both normalize to the empty
string (and which carry no GAAP tag and no values) are matched — the label
tier of `match_line_items` has no non-emptiness requirement, so the claim's
"never matched" is false. -/
theorem c6_counterexample :
    matchLineItems ⟨"", "", []⟩ ⟨"", "", []⟩ [] false = true := by decide

/-- C6 (amended): the label tier of `match_line_items` fires whenever the two
normalized labels are equal, with no non-emptiness requirement — in
particular two empty-normalized labels do match. -/
theorem c6_label_equal_implies_match (i1 i2 : MItem) (ys : List String)
    (ig : Bool) (hl : normalizeLabel i1.item_label = normalizeLabel i2.item_label) :
    matchLineItems i1 i2 ys ig = true := by
  unfold matchLineItems
  split
  · rfl
  · simp [hl]

/-- C6 witness: the amended theorem applied at concrete blank-labelled
items. -/
theorem c6_witness :
    matchLineItems ⟨"", "??", []⟩ ⟨"", "!!", []⟩ [] true = true :=
  c6_label_equal_implies_match ⟨"", "??", []⟩ ⟨"", "!!", []⟩ [] true (by decide)

-- ---------------------------------------------------------------------------
-- C9 — the flattener mutates the document's `periods`
-- ---------------------------------------------------------------------------

/-- C9 counterexample: `flatten_with_positions` reassigns the document's
`periods` to normalized keys, so a document whose `periods` entry is not
already normalized is modified by the call. -/
theorem c9_counterexample : (flattenWithPositions c9Stmt).2 ≠ c9Stmt := by decide

/-- C9 (amended): the flattener leaves `sections` (and the items inside)
untouched and returns an empty row list for a document missing `sections`,
but it does modify the document: `periods` is reassigned to its normalized
form. -/
theorem c9_flattener_frame (stmt : Stmt) :
    (flattenWithPositions stmt).2 =
      { stmt with periods := stmt.periods.map normalizeYearKey } ∧
    (flattenWithPositions stmt).2.sections = stmt.sections ∧
    (stmt.sections = none → (flattenWithPositions stmt).1 = []) := by
  refine ⟨rfl, rfl, fun h => ?_⟩
  simp [flattenWithPositions, h]

/-- C9 witness: the amended theorem applied at `c9Stmt` (which has no
`sections` key), with the implication discharged. -/
theorem c9_witness :
    (flattenWithPositions c9Stmt).1 = [] ∧
    (flattenWithPositions c9Stmt).2.sections = c9Stmt.sections :=
  ⟨(c9_flattener_frame c9Stmt).2.2 rfl, (c9_flattener_frame c9Stmt).2.1⟩

-- ---------------------------------------------------------------------------
-- C2 — the similarity fallback is never invoked by the builder
-- ---------------------------------------------------------------------------

/-- C2 counterexample: on `c2Input`, every item of period `2023`'s section
`Short stuff` label-matches the catalog section `Current Assets` (fraction
`1.0 >= 0.5`) — the fallback, had it been invoked on that state, binds the
two sections — yet `build_unified_catalog` creates the new catalog section
(key `cash|short stuff` exists in the result), because the builder never
calls `_apply_fallback_section_matching`. -/
theorem c2_counterexample :
    (exOk (buildUnifiedCatalog c2Input "balance_sheet")).map
      (fun cat => odHas cat "cash|short stuff") = some true ∧
    odGet? (applyFallbackSectionMatching c2AfterFirst c2Rows23
      (buildGreedySectionMap c2AfterFirst c2Rows23) ⟨1, 2⟩) "short stuff"
    = some (some "current assets") :=
  ⟨by decide, by decide⟩

/-- Every binding the best-match selection returns meets the threshold. -/
theorem bestFallbackFor_sound (unified : ODict Payload)
    (claimed : List (Option String)) (candidateRows : List Row) (thr : Frac)
    (s : String)
    (h : bestFallbackFor unified claimed candidateRows thr = some s) :
    fracLe thr (fallbackRatio unified candidateRows s) = true := by
  unfold bestFallbackFor at h
  refine foldl_invariant
    (fun (st : Option String × Frac) => ∀ e, st.1 = some e →
      fracLe thr (fallbackRatio unified candidateRows e) = true)
    (bestFallbackStep unified claimed candidateRows thr)
    (unifiedSecKeysInOrder unified)
    ((none : Option String), (⟨0, 1⟩ : Frac))
    (fun e he => by simp at he)
    (fun st esk _ hInv => ?_) s h
  intro e he
  unfold bestFallbackStep at he
  by_cases hcl : claimed.contains (some esk)
  · rw [if_pos hcl] at he
    exact hInv e he
  · rw [if_neg hcl] at he
    by_cases hr : (fracLe thr (fallbackRatio unified candidateRows esk) &&
        fracLt st.2 (fallbackRatio unified candidateRows esk)) = true
    · rw [if_pos hr] at he
      cases he
      exact (Bool.and_elim_left hr)
    · rw [if_neg hr] at he
      exact hInv e he

/-- C2 (amended): the similarity fallback is implemented
(`_apply_fallback_section_matching`, default threshold `0.5`, ties kept by the
first-encountered strictly-best section) and, when invoked, binds an unmatched
candidate section only to a still-unclaimed catalog section whose match
fraction meets the threshold — but `build_unified_catalog` never invokes it,
so a candidate section left unmatched by the greedy pass creates a new catalog
section (see the counterexample).  Stated: any binding present in the
fallback's output is either an original greedy binding or meets the
threshold. -/
theorem c2_fallback_soundness (unified : ODict Payload) (rows : List Row)
    (gmap : ODict (Option String)) (thr : Frac) (c s : String)
    (hc : odGet? (applyFallbackSectionMatching unified rows gmap thr) c
      = some (some s)) :
    odGet? gmap c = some (some s) ∨
      fracLe thr (fallbackRatio unified
        (rows.filter (fun r => r.secKeyOf = c)) s) = true := by
  unfold applyFallbackSectionMatching at hc
  refine foldl_invariant
    (fun (upd : ODict (Option String)) => ∀ c' s',
      odGet? upd c' = some (some s') →
      odGet? gmap c' = some (some s') ∨
        fracLe thr (fallbackRatio unified
          (rows.filter (fun r => r.secKeyOf = c')) s') = true)
    (fallbackStep unified rows thr) gmap gmap
    (fun c' s' h => Or.inl h)
    (fun upd a _ hInv => ?_) c s hc
  intro c' s' h
  unfold fallbackStep at h
  cases ha : a.2 with
  | some t =>
    rw [ha] at h
    exact hInv c' s' h
  | none =>
    rw [ha] at h
    cases hb : bestFallbackFor unified (upd.map Prod.snd)
        (rows.filter (fun r => r.secKeyOf = a.1)) thr with
    | none =>
      rw [hb] at h
      exact hInv c' s' h
    | some best =>
      rw [hb] at h
      by_cases hck : c' = a.1
      · subst hck
        rw [odGet?_odSet_self] at h
        have hbs : best = s' := by
          injection h with h1
          injection h1
        subst hbs
        exact Or.inr (bestFallbackFor_sound _ _ _ _ _ hb)
      · rw [odGet?_odSet_ne _ _ _ _ hck] at h
        exact hInv c' s' h

/-- C2 witness: the soundness theorem applied at the concrete fallback state
of `c2Input`, with its hypothesis discharged by evaluation. -/
theorem c2_witness :
    odGet? (buildGreedySectionMap c2AfterFirst c2Rows23) "short stuff"
      = some (some "current assets") ∨
    fracLe ⟨1, 2⟩ (fallbackRatio c2AfterFirst
      (c2Rows23.filter (fun r => r.secKeyOf = "short stuff"))
      "current assets") = true :=
  c2_fallback_soundness c2AfterFirst c2Rows23
    (buildGreedySectionMap c2AfterFirst c2Rows23) ⟨1, 2⟩
    "short stuff" "current assets" (by decide)

-- ---------------------------------------------------------------------------
-- C5 — repeated merge of the same period
-- ---------------------------------------------------------------------------

theorem mem_odKeys_odSet_self {α : Type} (d : ODict α) (k : String) (v : α) :
    k ∈ odKeys (odSet d k v) := by
  induction d with
  | nil => simp [odSet, odKeys]
  | cons p rest ih =>
    by_cases h : p.1 = k
    · simp [odSet, h, odKeys]
    · simp only [odSet, if_neg h, odKeys, List.map_cons, List.mem_cons]
      exact Or.inr ih

theorem odKeys_mono_odSet {α : Type} (d : ODict α) (k k' : String) (v : α)
    (h : k' ∈ odKeys d) : k' ∈ odKeys (odSet d k v) := by
  induction d with
  | nil => simp [odKeys] at h
  | cons p rest ih =>
    by_cases hp : p.1 = k
    · simp only [odSet, if_pos hp, odKeys, List.map_cons, List.mem_cons] at h ⊢
      rcases h with h | h
      · exact Or.inl (by rw [h, hp])
      · exact Or.inr h
    · simp only [odSet, if_neg hp, odKeys, List.map_cons, List.mem_cons] at h ⊢
      rcases h with h | h
      · exact Or.inl h
      · exact Or.inr (ih h)

theorem odGet?_mem {α : Type} {d : ODict α} {k : String} {v : α}
    (h : odGet? d k = some v) : (k, v) ∈ d := by
  induction d with
  | nil => simp [odGet?] at h
  | cons p rest ih =>
    simp only [odGet?] at h
    by_cases hp : p.1 = k
    · rw [if_pos hp] at h
      injection h with h'
      have hpkv : p = (k, v) := by
        cases p
        simp only at hp h'
        rw [hp, h']
      simp [hpkv]
    · rw [if_neg hp] at h
      exact List.mem_cons_of_mem _ (ih h)

theorem odHas_of_mem_odKeys {α : Type} {d : ODict α} {k : String}
    (h : k ∈ odKeys d) : odHas d k = true := by
  induction d with
  | nil => simp [odKeys] at h
  | cons p rest ih =>
    simp only [odKeys, List.map_cons, List.mem_cons] at h
    simp only [odHas, odGet?]
    rcases h with h | h
    · rw [if_pos h.symm]; rfl
    · by_cases hp : p.1 = k
      · rw [if_pos hp]; rfl
      · rw [if_neg hp]
        exact ih h

/-- Establish-and-preserve principle for `Except`-valued folds. -/
theorem foldlM_each {α β : Type} (Q : α → β → Prop) (f : β → α → Except String β)
    (l : List α) (init res : β)
    (hest : ∀ b a r, f b a = .ok r → Q a r)
    (hmono : ∀ b a r c, f b a = .ok r → Q c b → Q c r)
    (hres : l.foldlM f init = .ok res) : ∀ a ∈ l, Q a res := by
  induction l generalizing init with
  | nil => intro a ha; simp at ha
  | cons x xs ih =>
    rw [List.foldlM_cons] at hres
    cases hfx : f init x with
    | error e =>
      rw [hfx] at hres
      simp [Bind.bind, Except.bind] at hres
    | ok b =>
      rw [hfx] at hres
      simp only [Bind.bind, Except.bind] at hres
      intro a ha
      rcases List.mem_cons.mp ha with h | h
      · subst h
        exact foldlM_invariant (Q a) f xs b res
          (hest init a b hfx)
          (fun b' a' r _ hb' hf' => hmono b' a' r a hf' hb')
          hres
      · exact ih b hres a h

/-- The three possible outcomes of one merge-or-create block. -/
theorem mergeOrCreate_cases (staleYr sec : String) (clean ig : Bool)
    (mk : Option String) (u : ODict Payload) (row : Row) (u' : ODict Payload)
    (h : mergeOrCreate staleYr sec clean ig mk u row = .ok u') :
    u' = u ∨
    (∃ m pl vals, mk = some m ∧ odGet? u m = some pl ∧
      u' = odSet u m { pl with values := vals }) ∨
    (mk = none ∧ u' = odSet u (itmKeyOf ig row ++ "|" ++ sec) (rowPayload row)) := by
  cases mk with
  | none =>
    simp only [mergeOrCreate, Pure.pure, Except.pure] at h
    cases h
    exact Or.inr (Or.inr ⟨rfl, rfl⟩)
  | some m =>
    simp only [mergeOrCreate] at h
    cases hrev : strStarts "review_needed" m with
    | true =>
      rw [hrev] at h
      simp only [if_true, Pure.pure, Except.pure] at h
      cases h
      exact Or.inl rfl
    | false =>
      rw [hrev] at h
      simp only [Bool.false_eq_true, if_false] at h
      cases hget : odGet? u m with
      | none =>
        simp only [hget, Pure.pure, Except.pure] at h
        cases h
        exact Or.inl rfl
      | some pl =>
        simp only [hget] at h
        cases hmv : mergeValsBlock staleYr clean pl.values row.values with
        | error e =>
          simp [hmv, Bind.bind, Except.bind] at h
        | ok vals =>
          simp only [hmv, Bind.bind, Except.bind, Pure.pure, Except.pure] at h
          cases h
          exact Or.inr (Or.inl ⟨m, pl, vals, rfl, hget, rfl⟩)

theorem mergeOrCreate_mono (staleYr sec : String) (clean ig : Bool)
    (mk : Option String) (u : ODict Payload) (row : Row) (u' : ODict Payload)
    (h : mergeOrCreate staleYr sec clean ig mk u row = .ok u') :
    ∀ k, k ∈ odKeys u → k ∈ odKeys u' := by
  rcases mergeOrCreate_cases staleYr sec clean ig mk u row u' h with
    he | ⟨m, pl, vals, _, _, he⟩ | ⟨_, he⟩
  · subst he; exact fun k hk => hk
  · subst he; exact fun k hk => odKeys_mono_odSet _ _ _ _ hk
  · subst he; exact fun k hk => odKeys_mono_odSet _ _ _ _ hk

theorem mergeOrCreate_keys_eq (staleYr sec : String) (clean ig : Bool)
    (mk : Option String) (u : ODict Payload) (row : Row) (u' : ODict Payload)
    (hkey : mk = none → (itmKeyOf ig row ++ "|" ++ sec) ∈ odKeys u)
    (h : mergeOrCreate staleYr sec clean ig mk u row = .ok u') :
    odKeys u' = odKeys u := by
  rcases mergeOrCreate_cases staleYr sec clean ig mk u row u' h with
    he | ⟨m, pl, vals, _, hget, he⟩ | ⟨hmk, he⟩
  · subst he; rfl
  · subst he
    exact odKeys_odSet_of_has _ _ _ (by simp [odHas, hget])
  · subst he
    exact odKeys_odSet_of_has _ _ _ (odHas_of_mem_odKeys (hkey hmk))

theorem except_bind_ok {α β : Type} {x : Except String α} {f : α → Except String β}
    {b : β} (h : x.bind f = .ok b) : ∃ a, x = .ok a ∧ f a = .ok b := by
  cases x with
  | error e => simp [Except.bind] at h
  | ok a => exact ⟨a, rfl, by simpa [Except.bind] using h⟩

theorem processRow_mono (staleYr sec : String) (srows : List Row)
    (ask : Option String) (gim : List (Nat × String)) (u : ODict Payload)
    (p : Nat × Row) (u' : ODict Payload)
    (h : processRow staleYr sec srows ask gim u p = .ok u') :
    ∀ k, k ∈ odKeys u → k ∈ odKeys u' := by
  unfold processRow at h
  rcases except_bind_ok h with ⟨umid, hA, hB⟩
  intro k hk
  exact mergeOrCreate_mono _ _ _ _ _ _ _ _ hB k
    (mergeOrCreate_mono _ _ _ _ _ _ _ _ hA k hk)

theorem bgsm_empty_values_none (rows : List Row) :
    ∀ p ∈ buildGreedySectionMap [] rows, p.2 = (none : Option String) := by
  intro p hp
  unfold buildGreedySectionMap at hp
  have husecs : listUnifiedSections ([] : ODict Payload) = [] := rfl
  rw [husecs] at hp
  exact foldl_invariant
    (fun (st : List String × ODict (Option String)) =>
      ∀ q ∈ st.2, q.2 = (none : Option String))
    (greedySecStep []) (candidateSectionsInOrder rows) ([], [])
    (by intro q hq; simp at hq)
    (fun st c _ hInv q hq => by
      simp only [greedySecStep, List.find?] at hq
      rcases mem_odSet hq with h | h
      · simp [h]
      · exact hInv q h)
    p hp

theorem greedySecMap_empty_getD (rows : List Row) (sec : String) :
    (odGet? (buildGreedySectionMap [] rows) sec).getD none = none := by
  cases hg : odGet? (buildGreedySectionMap [] rows) sec with
  | none => rfl
  | some t =>
    have ht : t = none := by
      simpa using bgsm_empty_values_none rows _ (odGet?_mem hg)
    simp [ht]

theorem rewrite_id_of_none (u : ODict Payload) (g : ODict (Option String))
    (rows : List Row) (hall : ∀ p ∈ g, p.2 = (none : Option String)) :
    rewriteSectionMeta u g rows = rows := by
  unfold rewriteSectionMeta
  refine foldl_invariant (fun rws => rws = rows) (rewriteStep u) g rows rfl ?_
  intro rws c hc heq
  have hc2 := hall c hc
  simp only [rewriteStep, hc2]
  exact heq

theorem zip_self_eq_map {α : Type} (l : List α) :
    l.zip l = l.map (fun a => (a, a)) := by
  induction l with
  | nil => rfl
  | cons x xs ih => simp [ih]

theorem zip_map_eq_map {α : Type} (l : List α) (f : α → α) :
    l.zip (l.map f) = l.map (fun a => (a, f a)) := by
  induction l with
  | nil => rfl
  | cons x xs ih => simp [ih]

theorem groupRows_map (rows : List Row) (f : Row → Row) (sec : String) :
    groupRowsAfterRewrite rows (rows.map f) sec
    = (rows.filter (fun r => r.secKeyOf = sec)).map f := by
  unfold groupRowsAfterRewrite
  induction rows with
  | nil => rfl
  | cons r rs ih =>
    simp only [List.map_cons, List.zip_cons_cons]
    by_cases h : r.secKeyOf = sec
    · simpa [h, List.filter_cons] using ih
    · simpa [h, List.filter_cons] using ih

theorem groupRows_self (rows : List Row) (sec : String) :
    groupRowsAfterRewrite rows rows sec
    = rows.filter (fun r => r.secKeyOf = sec) := by
  have hmap := groupRows_map rows id sec
  simpa using hmap

theorem rewriteSectionMeta_exists_map (u : ODict Payload)
    (g : ODict (Option String)) (rows : List Row) :
    ∃ f : Row → Row, rewriteSectionMeta u g rows = rows.map f ∧
      ∀ r, (f r).item_gaap = r.item_gaap ∧ (f r).item_label = r.item_label ∧
        (f r).values = r.values ∧ (f r).position = r.position := by
  unfold rewriteSectionMeta
  refine foldl_invariant
    (fun rws => ∃ f : Row → Row, rws = rows.map f ∧
      ∀ r, (f r).item_gaap = r.item_gaap ∧ (f r).item_label = r.item_label ∧
        (f r).values = r.values ∧ (f r).position = r.position)
    (rewriteStep u) g rows ⟨id, by simp, by simp⟩ ?_
  rintro rws ⟨c1, c2⟩ _ ⟨f, heq, hpres⟩
  cases c2 with
  | none => exact ⟨f, heq, hpres⟩
  | some target =>
    simp only [rewriteStep]
    by_cases hct : c1 = target
    · rw [if_pos hct]
      exact ⟨f, heq, hpres⟩
    · rw [if_neg hct]
      cases hub : unifiedBySec u target with
      | nil => exact ⟨f, heq, hpres⟩
      | cons tp rest =>
        refine ⟨(fun r => if r.secKeyOf = c1 then
          { r with section_gaap := tp.section_gaap,
                   section_label := tp.section_label } else r) ∘ f,
          by simp only [heq, List.map_map], ?_⟩
        intro r
        by_cases hx : (f r).secKeyOf = c1
        · simp only [Function.comp, if_pos hx]
          exact ⟨(hpres r).1, (hpres r).2.1, (hpres r).2.2.1, (hpres r).2.2.2⟩
        · simp only [Function.comp, if_neg hx]
          exact hpres r

theorem isCollidingGaap_map (l : List Row) (f : Row → Row)
    (hf : ∀ r, (f r).item_gaap = r.item_gaap) (gp : String) :
    isCollidingGaap (l.map f) gp = isCollidingGaap l gp := by
  unfold isCollidingGaap
  rw [List.filter_map]
  have hfe : ∀ r ∈ l,
      ((fun q : Row => decide (q.item_gaap = gp)) ∘ f) r
      = (fun q : Row => decide (q.item_gaap = gp)) r := by
    intro r _
    simp [Function.comp, hf r]
  rw [List.filter_congr hfe, List.length_map]

theorem itmKeyOf_fields (ig : Bool) (r r' : Row)
    (hg : r'.item_gaap = r.item_gaap) (hl : r'.item_label = r.item_label) :
    itmKeyOf ig r' = itmKeyOf ig r := by
  unfold itmKeyOf
  rw [hg, hl]

theorem rowMatchedKey_none (srows : List Row) (gim : List (Nat × String))
    (u : ODict Payload) (p : Nat × Row) :
    rowMatchedKey srows none gim u p = none := rfl

theorem mergeOrCreate_none (staleYr sec : String) (clean ig : Bool)
    (u : ODict Payload) (row : Row) :
    mergeOrCreate staleYr sec clean ig none u row
    = .ok (odSet u (itmKeyOf ig row ++ "|" ++ sec) (rowPayload row)) := rfl

theorem processRow_creates (staleYr sec : String) (srows : List Row)
    (gim : List (Nat × String)) (u : ODict Payload) (p : Nat × Row)
    (u' : ODict Payload)
    (h : processRow staleYr sec srows none gim u p = .ok u') :
    (itmKeyOf (isCollidingGaap srows p.2.item_gaap) p.2 ++ "|" ++ sec)
      ∈ odKeys u' := by
  unfold processRow at h
  rw [rowMatchedKey_none, mergeOrCreate_none] at h
  have h2 : mergeOrCreate staleYr sec true
      (isCollidingGaap srows p.2.item_gaap) none
      (odSet u (itmKeyOf (isCollidingGaap srows p.2.item_gaap) p.2 ++ "|" ++ sec)
        (rowPayload p.2)) p.2 = .ok u' := by
    simpa [Except.bind] using h
  rw [mergeOrCreate_none] at h2
  injection h2 with h3
  rw [← h3]
  exact mem_odKeys_odSet_self _ _ _

theorem processSection_mono (staleYr : String) (gmap : ODict (Option String))
    (origRows newRows : List Row) (u : ODict Payload) (sec : String)
    (u' : ODict Payload)
    (h : processSection staleYr gmap origRows newRows u sec = .ok u') :
    ∀ k, k ∈ odKeys u → k ∈ odKeys u' := by
  unfold processSection at h
  intro k hk
  exact foldlM_invariant (fun v => k ∈ odKeys v) _ _ u u' hk
    (fun b a r _ hb hf => processRow_mono _ _ _ _ _ _ _ _ hf k hb) h

theorem exists_mem_enumFrom {α : Type} {l : List α} {x : α} (h : x ∈ l) :
    ∀ n, ∃ i, (i, x) ∈ l.enumFrom n := by
  induction l with
  | nil => simp at h
  | cons y ys ih =>
    intro n
    rcases List.mem_cons.mp h with h' | h'
    · exact ⟨n, by simp [List.enumFrom, h']⟩
    · rcases ih h' (n + 1) with ⟨i, hi⟩
      exact ⟨i, by
        simp only [List.enumFrom, List.mem_cons]
        exact Or.inr hi⟩

theorem snd_mem_of_mem_enum {α : Type} {l : List α} {p : Nat × α}
    (h : p ∈ l.enum) : p.2 ∈ l := by
  have hm := List.mem_map_of_mem Prod.snd h
  rwa [List.enum, List.enumFrom_map_snd] at hm

theorem sgkFold_sub (l : List Row) : ∀ acc : List String, ∀ k, k ∈ acc →
    k ∈ l.foldl (fun acc r =>
      if acc.contains r.secKeyOf then acc else acc ++ [r.secKeyOf]) acc := by
  induction l with
  | nil => intro acc k hk; simpa using hk
  | cons x xs ih =>
    intro acc k hk
    simp only [List.foldl_cons]
    by_cases hc : acc.contains x.secKeyOf = true
    · rw [if_pos hc]
      exact ih acc k hk
    · rw [if_neg hc]
      exact ih (acc ++ [x.secKeyOf]) k (List.mem_append_left _ hk)

theorem sgkFold_complete (l : List Row) : ∀ acc : List String, ∀ r ∈ l,
    r.secKeyOf ∈ l.foldl (fun acc r =>
      if acc.contains r.secKeyOf then acc else acc ++ [r.secKeyOf]) acc := by
  induction l with
  | nil => intro acc r hr; simp at hr
  | cons x xs ih =>
    intro acc r hr
    simp only [List.foldl_cons]
    rcases List.mem_cons.mp hr with h | h
    · subst h
      by_cases hc : acc.contains r.secKeyOf = true
      · rw [if_pos hc]
        refine sgkFold_sub xs acc r.secKeyOf ?_
        have := List.elem_iff.mp hc
        exact this
      · rw [if_neg hc]
        exact sgkFold_sub xs (acc ++ [r.secKeyOf]) r.secKeyOf (by simp)
    · by_cases hc : acc.contains x.secKeyOf = true
      · rw [if_pos hc]
        exact ih acc r h
      · rw [if_neg hc]
        exact ih (acc ++ [x.secKeyOf]) r h

theorem sectionGroupKeys_complete (rows : List Row) :
    ∀ r ∈ rows, r.secKeyOf ∈ sectionGroupKeys rows := by
  unfold sectionGroupKeys
  exact fun r hr => sgkFold_complete rows [] r hr

/-- Merging a filing into an empty catalog creates an entry for every row: the
catalog after the first merge holds the creation key of each row of each
section group (nothing matches against an empty catalog, so every row takes
the creation path). -/
theorem firstMerge_keys (staleYr : String) (rows : List Row)
    (u1 : ODict Payload) (r1 : List Row)
    (h1 : mergeFiling staleYr [] rows = .ok (u1, r1)) :
    ∀ sec : String, ∀ r ∈ rows.filter (fun q => q.secKeyOf = sec),
      (itmKeyOf (isCollidingGaap (rows.filter (fun q => q.secKeyOf = sec))
          r.item_gaap) r ++ "|" ++ sec) ∈ odKeys u1 := by
  unfold mergeFiling at h1
  rw [rewrite_id_of_none [] _ rows (bgsm_empty_values_none rows)] at h1
  rcases except_bind_ok h1 with ⟨w, hw, hpure⟩
  have hwu : w = u1 := by
    have hp : ((w, rows) : ODict Payload × List Row) = (u1, r1) := by
      injection hpure
    exact congrArg Prod.fst hp
  subst hwu
  intro sec r hr
  have hrsec : r.secKeyOf = sec := by
    have := List.of_mem_filter hr
    simpa using this
  have hsec : sec ∈ sectionGroupKeys rows :=
    hrsec ▸ sectionGroupKeys_complete rows r (List.mem_of_mem_filter hr)
  refine foldlM_each
    (fun sec' u => ∀ r' ∈ rows.filter (fun q => q.secKeyOf = sec'),
      (itmKeyOf (isCollidingGaap (rows.filter (fun q => q.secKeyOf = sec'))
          r'.item_gaap) r' ++ "|" ++ sec') ∈ odKeys u)
    _ (sectionGroupKeys rows) [] w ?_ ?_ hw sec hsec r hr
  · intro b sec' u' hstep
    unfold processSection at hstep
    rw [groupRows_self rows sec', greedySecMap_empty_getD rows sec'] at hstep
    intro r' hr'
    rcases exists_mem_enumFrom (x := r') hr' 0 with ⟨i, hi⟩
    refine foldlM_each
      (fun (p : Nat × Row) u =>
        (itmKeyOf (isCollidingGaap (rows.filter (fun q => q.secKeyOf = sec'))
            p.2.item_gaap) p.2 ++ "|" ++ sec') ∈ odKeys u)
      _ ((rows.filter (fun q => q.secKeyOf = sec')).enum) b u' ?_ ?_ hstep
      (i, r') (by simpa [List.enum] using hi)
    · intro bb a rr hf
      exact processRow_creates _ _ _ _ _ _ _ hf
    · intro bb a rr cc hf hm
      exact processRow_mono _ _ _ _ _ _ _ _ hf _ hm
  · intro b a rr cc hf hQ r' hr'
    exact processSection_mono _ _ _ _ _ _ _ hf _ (hQ r' hr')

/-- C5 (amended): merging the same single period a second time into the
catalog produced by merging it once creates no new entries — the catalog's
key list is unchanged by the repeated merge.  (Idempotence itself fails: the
repeated merge can change entry values and section metadata, see the
counterexample.) -/
theorem c5_repeat_merge_no_new_entries (staleYr : String) (rows : List Row)
    (u1 : ODict Payload) (r1 : List Row) (u2 : ODict Payload) (r2 : List Row)
    (h1 : mergeFiling staleYr [] rows = .ok (u1, r1))
    (h2 : mergeFiling staleYr u1 rows = .ok (u2, r2)) :
    odKeys u2 = odKeys u1 := by
  have hfirst := firstMerge_keys staleYr rows u1 r1 h1
  unfold mergeFiling at h2
  rcases except_bind_ok h2 with ⟨w, hw, hpure⟩
  have hwu : w = u2 := by
    have hp : ((w, rewriteSectionMeta u1 (buildGreedySectionMap u1 rows) rows) :
        ODict Payload × List Row) = (u2, r2) := by
      injection hpure
    exact congrArg Prod.fst hp
  subst hwu
  rcases rewriteSectionMeta_exists_map u1 (buildGreedySectionMap u1 rows) rows with
    ⟨f, hfeq, hpres⟩
  rw [hfeq] at hw
  refine foldlM_invariant (fun v => odKeys v = odKeys u1) _
    (sectionGroupKeys rows) u1 w rfl ?_ hw
  intro b sec r _ hb hsec
  unfold processSection at hsec
  rw [groupRows_map rows f sec] at hsec
  refine foldlM_invariant (fun v => odKeys v = odKeys u1) _ _ b r hb ?_ hsec
  intro bu p ru hp hbu hrow
  have hp2 : p.2 ∈ (rows.filter (fun q => q.secKeyOf = sec)).map f :=
    snd_mem_of_mem_enum hp
  rcases List.mem_map.mp hp2 with ⟨r0, hr0, hr0f⟩
  have hkmem : (itmKeyOf (isCollidingGaap
      ((rows.filter (fun q => q.secKeyOf = sec)).map f) p.2.item_gaap) p.2
      ++ "|" ++ sec) ∈ odKeys bu := by
    have hcoll : isCollidingGaap
        ((rows.filter (fun q => q.secKeyOf = sec)).map f) p.2.item_gaap
        = isCollidingGaap (rows.filter (fun q => q.secKeyOf = sec))
            r0.item_gaap := by
      rw [isCollidingGaap_map _ f (fun r => (hpres r).1)]
      rw [← hr0f, (hpres r0).1]
    have hkey : itmKeyOf (isCollidingGaap
        ((rows.filter (fun q => q.secKeyOf = sec)).map f) p.2.item_gaap) p.2
        = itmKeyOf (isCollidingGaap (rows.filter (fun q => q.secKeyOf = sec))
            r0.item_gaap) r0 := by
      rw [hcoll, ← hr0f]
      exact itmKeyOf_fields _ r0 (f r0) (hpres r0).1 (hpres r0).2.1
    rw [hkey, hbu]
    exact hfirst sec r0 hr0
  unfold processRow at hrow
  rcases except_bind_ok hrow with ⟨umid, hA, hB⟩
  have hkeysA : odKeys umid = odKeys bu :=
    mergeOrCreate_keys_eq _ _ _ _ _ _ _ _ (fun _ => hkmem) hA
  have hkmem2 : (itmKeyOf (isCollidingGaap
      ((rows.filter (fun q => q.secKeyOf = sec)).map f) p.2.item_gaap) p.2
      ++ "|" ++ sec) ∈ odKeys umid := hkeysA ▸ hkmem
  have hkeysB : odKeys ru = odKeys umid :=
    mergeOrCreate_keys_eq _ _ _ _ _ _ _ _ (fun _ => hkmem2) hB
  rw [hkeysB, hkeysA, hbu]

/-- C5 counterexample: merging `c5Rows` once succeeds, and merging it a second
time succeeds but yields a different catalog — the entry `cash|ops` acquires
the period key `2020` (merged into it from the sibling label-matched row),
which it does not have after a single merge.  So the repeated merge is not
idempotent. -/
theorem c5_counterexample :
    exOk (mergeFiling "2024" [] c5Rows) = some (c5Once, c5Rows) ∧
    exOk c5Twice = some (c5TwiceUnified, c5TwiceRows) ∧
    c5TwiceUnified ≠ c5Once ∧
    (odGet? c5TwiceUnified "cash|ops").map (fun p => odHas p.values "2020")
      = some true ∧
    (odGet? c5Once "cash|ops").map (fun p => odHas p.values "2020")
      = some false :=
  ⟨by decide, by decide, by decide, by decide, by decide⟩

/-- C5 witness: the amended theorem applied at `c5Rows`, with both merge
hypotheses discharged by evaluation. -/
theorem c5_witness : odKeys c5TwiceUnified = odKeys c5Once :=
  c5_repeat_merge_no_new_entries "2024" c5Rows c5Once c5Rows
    c5TwiceUnified c5TwiceRows (by decide) (by decide)

-- ---------------------------------------------------------------------------
-- C4 — presence reconciliation zeroes absent pairs
-- ---------------------------------------------------------------------------

theorem odGet?_eq_none_of_not_has {α : Type} {d : ODict α} {k : String}
    (h : odHas d k = false) : odGet? d k = none := by
  unfold odHas at h
  cases hg : odGet? d k with
  | none => rfl
  | some v => rw [hg] at h; simp at h

theorem odGet?_map_val {α β : Type} (d : ODict α) (g : α → β) (k : String) :
    odGet? (d.map (fun kp => (kp.1, g kp.2))) k = (odGet? d k).map g := by
  induction d with
  | nil => rfl
  | cons p rest ih =>
    by_cases hp : p.1 = k
    · simp [odGet?, hp]
    · simpa [odGet?, hp] using ih

theorem setAbsent_fold_lookup (fy : String) (ks : List String) :
    ∀ (m : ODict String) (y : String),
      odGet? (ks.foldl (y2aKeyStep fy) m) y
      = if odHas m y then odGet? m y
        else if ks.contains y then some fy else none := by
  induction ks with
  | nil =>
    intro m y
    by_cases h : odHas m y = true
    · simp [h]
    · simp only [Bool.not_eq_true] at h
      simp [h, odGet?_eq_none_of_not_has h]
  | cons k ks ih =>
    intro m y
    simp only [List.foldl_cons]
    by_cases hmk : odHas m k = true
    · rw [show y2aKeyStep fy m k = m by simp [y2aKeyStep, hmk]]
      rw [ih m y]
      by_cases hmy : odHas m y = true
      · simp [hmy]
      · have hyk : ¬(y = k) := fun he => by rw [he] at hmy; exact hmy hmk
        simp only [Bool.not_eq_true] at hmy
        simp [hmy, List.contains_cons, hyk]
    · rw [show y2aKeyStep fy m k = odSet m k fy by simp [y2aKeyStep, hmk]]
      rw [ih _ y]
      by_cases hyk : y = k
      · subst hyk
        have h1 : odHas (odSet m y fy) y = true := by
          simp [odHas, odGet?_odSet_self]
        simp only [Bool.not_eq_true] at hmk
        simp [h1, hmk, odGet?_odSet_self, List.contains_cons]
      · have h1 : odHas (odSet m k fy) y = odHas m y := by
          simp [odHas, odGet?_odSet_ne m k y fy hyk]
        rw [h1, odGet?_odSet_ne m k y fy hyk]
        by_cases hmy : odHas m y = true
        · simp [hmy]
        · simp only [Bool.not_eq_true] at hmy
          simp [hmy, List.contains_cons, hyk]

theorem setAbsent_fold_has (fy : String) (ks : List String) (m : ODict String)
    (y : String) :
    odHas (ks.foldl (y2aKeyStep fy) m) y = (odHas m y || ks.contains y) := by
  unfold odHas
  rw [setAbsent_fold_lookup]
  by_cases hmy : odHas m y = true
  · rw [if_pos hmy]
    unfold odHas at hmy
    simp [hmy]
  · rw [if_neg hmy]
    simp only [Bool.not_eq_true] at hmy
    by_cases hc : y ∈ ks
    · simp [hc, hmy, odGet?_eq_none_of_not_has hmy]
    · simp [hc, hmy, odGet?_eq_none_of_not_has hmy]

theorem rowStep_lookup (fy : String) (rows : List Row) :
    ∀ (m : ODict String) (y : String),
      odGet? (rows.foldl (y2aRowStep fy) m) y
      = if odHas m y then odGet? m y
        else if rows.any (fun r => (odKeys r.values).contains y) then some fy
        else none := by
  induction rows with
  | nil =>
    intro m y
    by_cases h : odHas m y = true
    · simp [h]
    · simp only [Bool.not_eq_true] at h
      simp [h, odGet?_eq_none_of_not_has h]
  | cons r rs ih =>
    intro m y
    simp only [List.foldl_cons]
    rw [ih _ y]
    simp only [y2aRowStep]
    rw [setAbsent_fold_has, setAbsent_fold_lookup]
    by_cases hmy : odHas m y = true
    · simp [hmy]
    · simp only [Bool.not_eq_true] at hmy
      by_cases hc : y ∈ odKeys r.values
      · simp [hmy, hc]
      · simp [hmy, hc]

theorem buildYearToAuth_eq_find (flatAll : ODict (List Row))
    (ys : List String) (y : String) :
    odGet? (buildYearToAuth flatAll ys) y
    = ys.find? (fun fy => ((odGet? flatAll fy).getD []).any
        (fun r => (odKeys r.values).contains y)) := by
  unfold buildYearToAuth
  suffices h : ∀ m : ODict String,
      odGet? (ys.foldl (y2aFilingStep flatAll) m) y
      = if odHas m y then odGet? m y
        else ys.find? (fun fy => ((odGet? flatAll fy).getD []).any
          (fun r => (odKeys r.values).contains y)) by
    rw [h []]
    simp [odHas, odGet?]
  induction ys with
  | nil =>
    intro m
    by_cases hmy : odHas m y = true
    · simp [hmy]
    · simp only [Bool.not_eq_true] at hmy
      simp [hmy, odGet?_eq_none_of_not_has hmy]
  | cons fy ys ih =>
    intro m
    simp only [List.foldl_cons]
    rw [ih _]
    simp only [y2aFilingStep]
    rw [rowStep_lookup fy _ m y]
    have hhas : odHas (((odGet? flatAll fy).getD []).foldl (y2aRowStep fy) m) y
        = (odHas m y || ((odGet? flatAll fy).getD []).any
            (fun r => (odKeys r.values).contains y)) := by
      unfold odHas
      rw [rowStep_lookup fy _ m y]
      by_cases hmy : odHas m y = true
      · rw [if_pos hmy]
        unfold odHas at hmy
        simp [hmy]
      · rw [if_neg hmy]
        simp only [Bool.not_eq_true] at hmy
        by_cases hc : ∃ x ∈ (odGet? flatAll fy).getD [], y ∈ odKeys x.values
        · simp [hc, hmy, odGet?_eq_none_of_not_has hmy]
        · simp [hmy, odGet?_eq_none_of_not_has hmy]
          rw [if_neg hc]
          simp only [Option.isSome_none]
          symm
          rw [Bool.eq_false_iff]
          intro ha
          exact hc (by simpa using ha)
    rw [hhas]
    by_cases hmy : odHas m y = true
    · simp [hmy]
    · simp only [Bool.not_eq_true] at hmy
      by_cases hc : ∃ x ∈ (odGet? flatAll fy).getD [], y ∈ odKeys x.values
      · simp [hmy, hc, List.find?_cons_of_pos]
      · simp [hmy, hc, List.find?_cons_of_neg]

theorem pyNeZero_eq_false {v : PyVal} (h : pyNeZero v = false) : v = .vnum 0 := by
  cases v with
  | vnum n =>
    simp [pyNeZero] at h
    simp [h]
  | vnone => simp [pyNeZero] at h
  | vstr s => simp [pyNeZero] at h
  | vdictV w => simp [pyNeZero] at h
  | vdictNoV => simp [pyNeZero] at h

theorem zeroYearStep_shape (flatAll : ODict (List Row)) (y2a : ODict String)
    (p : Payload) (vals : ODict PyVal) (y : String) :
    zeroYearStep flatAll y2a p vals y = vals ∨
    zeroYearStep flatAll y2a p vals y = odSet vals y (.vnum 0) := by
  unfold zeroYearStep
  cases odGet? y2a y with
  | none => left; rfl
  | some authFy =>
    by_cases h1 : (authSectionItems flatAll authFy p.secKeyOf).isEmpty = true
    · by_cases h2 : pyNeZero ((odGet? vals y).getD .vnone) = true
      · right; simp [h1, h2]
      · left; simp [h1, h2]
    · by_cases h3 : (authSectionItems flatAll authFy p.secKeyOf).any
          (fun it => zMatchItem p y ((odGet? vals y).getD .vnone) it) = true
      · left; simp [h1, h3]
      · by_cases h2 : pyNeZero ((odGet? vals y).getD .vnone) = true
        · right; simp [h1, h3, h2]
        · left; simp [h1, h3, h2]

theorem zeroFold_lookup_not_mem (flatAll : ODict (List Row)) (y2a : ODict String)
    (p : Payload) (year : String) :
    ∀ (ys : List String) (vals : ODict PyVal), year ∉ ys →
    odGet? (ys.foldl (zeroYearStep flatAll y2a p) vals) year = odGet? vals year := by
  intro ys
  induction ys with
  | nil => intro vals _; rfl
  | cons y ys ih =>
    intro vals hnm
    have hy : year ≠ y := fun h => hnm (h ▸ List.mem_cons_self y ys)
    have hys : year ∉ ys := fun h => hnm (List.mem_cons_of_mem _ h)
    rw [List.foldl_cons, ih _ hys]
    rcases zeroYearStep_shape flatAll y2a p vals y with h | h
    · rw [h]
    · rw [h, odGet?_odSet_ne _ _ _ _ hy]

theorem zeroYearStep_zeroes (flatAll : ODict (List Row)) (y2a : ODict String)
    (p : Payload) (vals : ODict PyVal) (year authFy : String) (cur : PyVal)
    (hcur : odGet? vals year = some cur)
    (hauth : odGet? y2a year = some authFy)
    (hno : authSectionItems flatAll authFy p.secKeyOf = [] ∨
      ∀ it ∈ authSectionItems flatAll authFy p.secKeyOf,
        zMatchItem p year cur it = false) :
    ∃ v, odGet? (zeroYearStep flatAll y2a p vals year) year = some v ∧
      pyIsZero v = true := by
  have hcurd : (odGet? vals year).getD .vnone = cur := by rw [hcur]; rfl
  have hbody : zeroYearStep flatAll y2a p vals year
      = (if pyNeZero cur = true then odSet vals year (.vnum 0) else vals) := by
    unfold zeroYearStep
    simp only [hauth]
    by_cases hemp : (authSectionItems flatAll authFy p.secKeyOf).isEmpty = true
    · simp [hemp, hcurd]
    · have hne : authSectionItems flatAll authFy p.secKeyOf ≠ [] := by
        intro h
        exact hemp (by simp [h])
      have hall : ∀ it ∈ authSectionItems flatAll authFy p.secKeyOf,
          zMatchItem p year cur it = false := by
        rcases hno with h | h
        · exact absurd h hne
        · exact h
      have hany : (authSectionItems flatAll authFy p.secKeyOf).any
          (fun it => zMatchItem p year ((odGet? vals year).getD .vnone) it) = false := by
        rw [hcurd, Bool.eq_false_iff]
        intro ha
        obtain ⟨it, hit, hmt⟩ := by simpa using ha
        rw [hall it hit] at hmt
        exact Bool.false_ne_true hmt
      simp only [hemp, if_false, hcurd]
      simp [hany]
      intro x hx hmt
      rw [hall x hx] at hmt
      exact absurd hmt Bool.false_ne_true
  by_cases hnz : pyNeZero cur = true
  · refine ⟨.vnum 0, ?_, rfl⟩
    rw [hbody, if_pos hnz]
    exact odGet?_odSet_self _ _ _
  · have hf : pyNeZero cur = false := by simpa using hnz
    have hz := pyNeZero_eq_false hf
    refine ⟨cur, ?_, by rw [hz]; rfl⟩
    rw [hbody, if_neg hnz]
    exact hcur

theorem zeroOutPayload_zeroes (flatAll : ODict (List Row)) (y2a : ODict String)
    (p : Payload) (year authFy : String)
    (hnd : (odKeys p.values).Nodup)
    (hmem : year ∈ odKeys p.values)
    (hauth : odGet? y2a year = some authFy)
    (hno : authSectionItems flatAll authFy p.secKeyOf = [] ∨
      ∀ it ∈ authSectionItems flatAll authFy p.secKeyOf,
        zMatchItem p year ((odGet? p.values year).getD .vnone) it = false) :
    ∃ v, odGet? (zeroOutPayload flatAll y2a p).values year = some v ∧
      pyIsZero v = true := by
  obtain ⟨l1, l2, hsplit⟩ := List.append_of_mem hmem
  have hnd' : (l1 ++ year :: l2).Nodup := hsplit ▸ hnd
  have h12 := List.nodup_append.mp hnd'
  have hy2 : year ∉ l2 := (List.nodup_cons.mp h12.2.1).1
  have hy1 : year ∉ l1 := fun h => h12.2.2 h (List.mem_cons_self _ _)
  obtain ⟨cur, hcur⟩ : ∃ cur, odGet? p.values year = some cur := by
    have hh := odHas_of_mem_odKeys hmem
    unfold odHas at hh
    cases hg : odGet? p.values year with
    | none => rw [hg] at hh; simp at hh
    | some v => exact ⟨v, rfl⟩
  have hcurd : (odGet? p.values year).getD .vnone = cur := by rw [hcur]; rfl
  rw [hcurd] at hno
  unfold zeroOutPayload
  simp only []
  rw [hsplit, List.foldl_append, List.foldl_cons]
  have hfirst : odGet? (l1.foldl (zeroYearStep flatAll y2a p) p.values) year
      = some cur :=
    (zeroFold_lookup_not_mem flatAll y2a p year l1 p.values hy1).trans hcur
  obtain ⟨v, hv, hz⟩ :=
    zeroYearStep_zeroes flatAll y2a p _ year authFy cur hfirst hauth hno
  refine ⟨v, ?_, hz⟩
  rw [zeroFold_lookup_not_mem flatAll y2a p year l2 _ hy2]
  exact hv

/-- C4: presence reconciliation zeroes absent pairs — for a catalog entry `p`
holding period key `year` (duplicate-free key list), with `authFy` the first
filing in the supplied newest-first order whose flattened rows carry `year`
among their value keys, if that filing has no rows under the entry's section
key, or no such row matches the entry by GAAP tag, normalized label, or
single-period value equality for `year`, then after
`zero_out_overlapping_years_for_new_items` the entry's value for `year` is
zero. -/
theorem c4_presence_zeroes (unified : ODict Payload) (flatAll : ODict (List Row))
    (ys : List String) (key year authFy : String) (p : Payload)
    (hp : odGet? unified key = some p)
    (hnd : (odKeys p.values).Nodup)
    (hmem : year ∈ odKeys p.values)
    (hauth : ys.find? (fun fy => ((odGet? flatAll fy).getD []).any
        (fun r => (odKeys r.values).contains year)) = some authFy)
    (hno : authSectionItems flatAll authFy p.secKeyOf = [] ∨
      ∀ it ∈ authSectionItems flatAll authFy p.secKeyOf,
        zMatchItem p year ((odGet? p.values year).getD .vnone) it = false) :
    ∃ q v, odGet? (zeroOutOverlappingYears unified flatAll ys) key = some q ∧
      odGet? q.values year = some v ∧ pyIsZero v = true := by
  have hy2a : odGet? (buildYearToAuth flatAll ys) year = some authFy := by
    rw [buildYearToAuth_eq_find]
    exact hauth
  obtain ⟨v, hv, hz⟩ :=
    zeroOutPayload_zeroes flatAll (buildYearToAuth flatAll ys) p year authFy
      hnd hmem hy2a hno
  refine ⟨zeroOutPayload flatAll (buildYearToAuth flatAll ys) p, v, ?_, hv, hz⟩
  have hmap : odGet? (zeroOutOverlappingYears unified flatAll ys) key
      = (odGet? unified key).map
          (fun q => zeroOutPayload flatAll (buildYearToAuth flatAll ys) q) := by
    simp only [zeroOutOverlappingYears]
    exact odGet?_map_val unified _ key
  rw [hmap, hp]
  rfl

/-- C4 witness: in the concrete two-filing input, filing `2022` is
authoritative for period key `2022` but its `Ops` section has no item matching
the entry, so the stale value `50` is forced to zero. -/
theorem c4_witness :
    ∃ q v, odGet? (zeroOutOverlappingYears c4Unified c4FlatAll ["2023", "2022"])
        "net income|ops" = some q ∧
      odGet? q.values "2022" = some v ∧ pyIsZero v = true :=
  c4_presence_zeroes c4Unified c4FlatAll ["2023", "2022"] "net income|ops"
    "2022" "2022" c4Payload (by rfl) (by decide) (by decide) (by decide)
    (Or.inr (by decide))

theorem collectStep_keeps_nil (T : String) (st : ODict Stmt × List String)
    (p : String × ODict StmtDoc)
    (hp : ∀ sd, odGet? p.2 T = some sd → sd.errorField.isSome = true)
    (h : st.1 = []) : (collectStep T st p).1 = [] := by
  unfold collectStep
  cases hg : odGet? p.2 T with
  | none => exact h
  | some sd =>
    simp only [hg]
    rw [if_pos (hp sd hg)]
    exact h

theorem collectStmtYears_all_error (T : String) (years : ODict (ODict StmtDoc))
    (hall : ∀ p ∈ years, ∀ sd, odGet? p.2 T = some sd →
      sd.errorField.isSome = true) :
    (collectStmtYears years T).1 = [] := by
  unfold collectStmtYears
  exact foldl_invariant (fun st => st.1 = []) (collectStep T) years ([], []) rfl
    (fun st p hp h => collectStep_keeps_nil T st p (hall p hp) h)

theorem processStmtType_lookup_self (years : ODict (ODict StmtDoc))
    (r : ODict ResVal) (T : String) (h : T ≠ T ++ "_url") :
    odGet? (processStmtType years r T) T = some (.cat (perTypeCat years T)) := by
  simp only [processStmtType, perTypeCat]
  by_cases hemp : (collectStmtYears years T).1.isEmpty = true
  · rw [if_pos hemp, if_pos hemp, odGet?_odSet_ne _ _ _ _ h, odGet?_odSet_self]
  · rw [if_neg hemp, if_neg hemp]
    cases hb : buildUnifiedCatalog (collectStmtYears years T).1 T with
    | ok u =>
      simp only [hb]
      rw [odGet?_odSet_ne _ _ _ _ h, odGet?_odSet_self]
    | error e =>
      simp only [hb]
      rw [odGet?_odSet_self]

theorem processStmtType_lookup_other (years : ODict (ODict StmtDoc))
    (r : ODict ResVal) (T' k : String) (h1 : k ≠ T') (h2 : k ≠ T' ++ "_url") :
    odGet? (processStmtType years r T') k = odGet? r k := by
  simp only [processStmtType]
  by_cases hemp : (collectStmtYears years T').1.isEmpty = true
  · rw [if_pos hemp, odGet?_odSet_ne _ _ _ _ h2, odGet?_odSet_ne _ _ _ _ h1]
  · rw [if_neg hemp]
    cases hb : buildUnifiedCatalog (collectStmtYears years T').1 T' with
    | ok u =>
      simp only [hb]
      rw [odGet?_odSet_ne _ _ _ _ h2, odGet?_odSet_ne _ _ _ _ h1]
    | error e =>
      simp only [hb]
      rw [odGet?_odSet_ne _ _ _ _ h1]

theorem list_isEmpty_eq_nil {α : Type} (l : List α) : l.isEmpty = true ↔ l = [] := by
  cases l <;> simp [List.isEmpty]

theorem wrapper_lookup_cat (years : ODict (ODict StmtDoc)) (T : String)
    (hT : T ∈ statementTypes) :
    odGet? (buildUnifiedCatalogAllStatements years) T
      = some (.cat (perTypeCat years T)) := by
  have hT' : T = "income_statement" ∨ T = "balance_sheet" ∨
      T = "cash_flow_statement" := by simpa [statementTypes] using hT
  by_cases hy : years.isEmpty = true
  · have hnil : years = [] := by
      cases years with
      | nil => rfl
      | cons p rest => simp [List.isEmpty] at hy
    subst hnil
    rcases hT' with h | h | h <;> subst h <;> rfl
  · unfold buildUnifiedCatalogAllStatements
    rw [if_neg hy]
    have hfold : statementTypes.foldl (processStmtType years) []
        = processStmtType years (processStmtType years
            (processStmtType years [] "income_statement") "balance_sheet")
            "cash_flow_statement" := rfl
    rw [hfold]
    rcases hT' with h | h | h <;> subst h
    · rw [processStmtType_lookup_other years _ "cash_flow_statement" _
          (by decide) (by decide),
        processStmtType_lookup_other years _ "balance_sheet" _
          (by decide) (by decide),
        processStmtType_lookup_self years _ "income_statement" (by decide)]
    · rw [processStmtType_lookup_other years _ "cash_flow_statement" _
          (by decide) (by decide),
        processStmtType_lookup_self years _ "balance_sheet" (by decide)]
    · rw [processStmtType_lookup_self years _ "cash_flow_statement" (by decide)]

theorem processStmtType_lookup_url (years : ODict (ODict StmtDoc))
    (r : ODict ResVal) (T : String) (h : T ≠ T ++ "_url") :
    odGet? (processStmtType years r T) (T ++ "_url")
      = if (collectStmtYears years T).1.isEmpty = true then some (.urls [])
        else match buildUnifiedCatalog (collectStmtYears years T).1 T with
          | .ok _ => some (.urls (collectStmtYears years T).2)
          | .error _ => odGet? r (T ++ "_url") := by
  simp only [processStmtType]
  by_cases hemp : (collectStmtYears years T).1.isEmpty = true
  · rw [if_pos hemp, if_pos hemp, odGet?_odSet_self]
  · rw [if_neg hemp, if_neg hemp]
    cases hb : buildUnifiedCatalog (collectStmtYears years T).1 T with
    | ok u =>
      simp only [hb]
      rw [odGet?_odSet_self]
    | error e =>
      simp only [hb]
      rw [odGet?_odSet_ne _ _ _ _ (Ne.symm h)]

theorem wrapper_lookup_url (years : ODict (ODict StmtDoc)) (T : String)
    (hT : T ∈ statementTypes) (hy : ¬ years.isEmpty = true) :
    odGet? (buildUnifiedCatalogAllStatements years) (T ++ "_url")
      = if (collectStmtYears years T).1.isEmpty = true then some (.urls [])
        else match buildUnifiedCatalog (collectStmtYears years T).1 T with
          | .ok _ => some (.urls (collectStmtYears years T).2)
          | .error _ => none := by
  have hT' : T = "income_statement" ∨ T = "balance_sheet" ∨
      T = "cash_flow_statement" := by simpa [statementTypes] using hT
  unfold buildUnifiedCatalogAllStatements
  rw [if_neg hy]
  have hfold : statementTypes.foldl (processStmtType years) []
      = processStmtType years (processStmtType years
          (processStmtType years [] "income_statement") "balance_sheet")
          "cash_flow_statement" := rfl
  rw [hfold]
  rcases hT' with h | h | h <;> subst h
  · rw [processStmtType_lookup_other years _ "cash_flow_statement" _
        (by decide) (by decide),
      processStmtType_lookup_other years _ "balance_sheet" _
        (by decide) (by decide),
      processStmtType_lookup_url years _ "income_statement" (by decide)]
    by_cases hemp : (collectStmtYears years "income_statement").1.isEmpty = true
    · rw [if_pos hemp, if_pos hemp]
    · rw [if_neg hemp, if_neg hemp]
      cases hb : buildUnifiedCatalog (collectStmtYears years "income_statement").1
          "income_statement" with
      | ok u => simp only [hb]
      | error e =>
        simp only [hb]
        rfl
  · rw [processStmtType_lookup_other years _ "cash_flow_statement" _
        (by decide) (by decide),
      processStmtType_lookup_url years _ "balance_sheet" (by decide)]
    by_cases hemp : (collectStmtYears years "balance_sheet").1.isEmpty = true
    · rw [if_pos hemp, if_pos hemp]
    · rw [if_neg hemp, if_neg hemp]
      cases hb : buildUnifiedCatalog (collectStmtYears years "balance_sheet").1
          "balance_sheet" with
      | ok u => simp only [hb]
      | error e =>
        simp only [hb]
        rw [processStmtType_lookup_other years _ "income_statement" _
            (by decide) (by decide)]
        rfl
  · rw [processStmtType_lookup_url years _ "cash_flow_statement" (by decide)]
    by_cases hemp : (collectStmtYears years "cash_flow_statement").1.isEmpty = true
    · rw [if_pos hemp, if_pos hemp]
    · rw [if_neg hemp, if_neg hemp]
      cases hb : buildUnifiedCatalog
          (collectStmtYears years "cash_flow_statement").1
          "cash_flow_statement" with
      | ok u => simp only [hb]
      | error e =>
        simp only [hb]
        rw [processStmtType_lookup_other years _ "balance_sheet" _
            (by decide) (by decide),
          processStmtType_lookup_other years _ "income_statement" _
            (by decide) (by decide)]
        rfl

/-- C8: the aggregate entry point is a total function that isolates failures
per statement type — each of the three statement types is always mapped to an
ordered catalog computed from that type's own data alone (so a raising build
for one type cannot disturb a sibling's result); a type whose collected data
is empty (in particular one whose per-period documents all carry an `error`
field), and a type whose `build_unified_catalog` call raises, get the empty
catalog. -/
theorem c8_aggregate_isolation (years : ODict (ODict StmtDoc)) (T : String)
    (hT : T ∈ statementTypes) :
    odGet? (buildUnifiedCatalogAllStatements years) T
      = some (.cat (perTypeCat years T)) ∧
    ((collectStmtYears years T).1 = [] → perTypeCat years T = []) ∧
    ((∀ p ∈ years, ∀ sd, odGet? p.2 T = some sd →
        sd.errorField.isSome = true) → perTypeCat years T = []) ∧
    (∀ e, buildUnifiedCatalog (collectStmtYears years T).1 T = .error e →
      perTypeCat years T = []) := by
  have hempCat : (collectStmtYears years T).1 = [] → perTypeCat years T = [] := by
    intro h
    simp [perTypeCat, h]
  refine ⟨wrapper_lookup_cat years T hT, hempCat,
    fun hall => hempCat (collectStmtYears_all_error T years hall), ?_⟩
  · intro e he
    by_cases hemp : (collectStmtYears years T).1.isEmpty = true
    · simp [perTypeCat, hemp]
    · simp [perTypeCat, hemp, he]

/-- C8 witness: on the concrete wrapper input — income statement always
errored, balance sheet's build raising, cash flow well-formed — every
statement type still gets its own catalog, computed from its own data. -/
theorem c8_witness :
    odGet? (buildUnifiedCatalogAllStatements wYears) "balance_sheet"
      = some (.cat (perTypeCat wYears "balance_sheet")) ∧
    ((collectStmtYears wYears "balance_sheet").1 = [] →
      perTypeCat wYears "balance_sheet" = []) ∧
    ((∀ p ∈ wYears, ∀ sd, odGet? p.2 "balance_sheet" = some sd →
        sd.errorField.isSome = true) → perTypeCat wYears "balance_sheet" = []) ∧
    (∀ e, buildUnifiedCatalog (collectStmtYears wYears "balance_sheet").1
        "balance_sheet" = .error e → perTypeCat wYears "balance_sheet" = []) :=
  c8_aggregate_isolation wYears "balance_sheet" (by decide)

/-- C10 counterexample: on the empty years mapping the wrapper takes its
early-return path, so every statement type — including one with no data —
gets an empty catalog and NO `_url` key at all, contradicting the claim that
a no-data type always has its `_url` key bound to an empty list. -/
theorem c10_counterexample :
    odGet? (buildUnifiedCatalogAllStatements []) "income_statement"
      = some (.cat []) ∧
    odGet? (buildUnifiedCatalogAllStatements [])
      ("income_statement" ++ "_url") = none := by
  constructor
  · rfl
  · rfl

/-- C10 (amended): when the years mapping is non-empty, the parallel
source-URL keys are asymmetric on failure — a statement type with collected
data whose `build_unified_catalog` call raises gets an empty catalog and its
`_url` key is absent from the result, while a statement type with no
collected data gets both an empty catalog and its `_url` key bound to the
empty list. -/
theorem c10_url_key_asymmetry (years : ODict (ODict StmtDoc)) (T : String)
    (hT : T ∈ statementTypes) (hy : ¬ years.isEmpty = true) :
    ((collectStmtYears years T).1 ≠ [] →
      ∀ e, buildUnifiedCatalog (collectStmtYears years T).1 T = .error e →
      odGet? (buildUnifiedCatalogAllStatements years) (T ++ "_url") = none ∧
      odGet? (buildUnifiedCatalogAllStatements years) T = some (.cat [])) ∧
    ((collectStmtYears years T).1 = [] →
      odGet? (buildUnifiedCatalogAllStatements years) (T ++ "_url")
        = some (.urls []) ∧
      odGet? (buildUnifiedCatalogAllStatements years) T = some (.cat [])) := by
  constructor
  · intro hne e he
    have hemp : ¬ (collectStmtYears years T).1.isEmpty = true := by
      rw [list_isEmpty_eq_nil]
      exact hne
    constructor
    · rw [wrapper_lookup_url years T hT hy, if_neg hemp]
      simp only [he]
    · rw [wrapper_lookup_cat years T hT]
      have : perTypeCat years T = [] := by
        simp only [perTypeCat]
        rw [if_neg hemp]
        simp only [he]
      rw [this]
  · intro h0
    have hemp : (collectStmtYears years T).1.isEmpty = true := by
      rw [list_isEmpty_eq_nil]
      exact h0
    constructor
    · rw [wrapper_lookup_url years T hT hy, if_pos hemp]
    · rw [wrapper_lookup_cat years T hT]
      have : perTypeCat years T = [] := by
        simp only [perTypeCat]
        rw [if_pos hemp]
      rw [this]

/-- C10 witness: on the concrete wrapper input the balance sheet has data but
its build raises, so its `_url` key is absent while its catalog is empty. -/
theorem c10_witness :
    ((collectStmtYears wYears "balance_sheet").1 ≠ [] →
      ∀ e, buildUnifiedCatalog (collectStmtYears wYears "balance_sheet").1
          "balance_sheet" = .error e →
      odGet? (buildUnifiedCatalogAllStatements wYears)
        ("balance_sheet" ++ "_url") = none ∧
      odGet? (buildUnifiedCatalogAllStatements wYears) "balance_sheet"
        = some (.cat [])) ∧
    ((collectStmtYears wYears "balance_sheet").1 = [] →
      odGet? (buildUnifiedCatalogAllStatements wYears)
        ("balance_sheet" ++ "_url") = some (.urls []) ∧
      odGet? (buildUnifiedCatalogAllStatements wYears) "balance_sheet"
        = some (.cat [])) :=
  c10_url_key_asymmetry wYears "balance_sheet" (by decide) (by decide)

theorem charsLt_irrefl : ∀ (x : List Char), charsLt x x = false
  | [] => rfl
  | a :: as => by
    unfold charsLt
    rw [if_neg (lt_irrefl a), if_neg (lt_irrefl a)]
    exact charsLt_irrefl as

theorem charsLt_trans : ∀ (x y z : List Char), charsLt x y = true →
    charsLt y z = true → charsLt x z = true := by
  intro x
  induction x with
  | nil =>
    intro y z hxy hyz
    cases y with
    | nil => simp [charsLt] at hxy
    | cons b bs =>
      cases z with
      | nil => simp [charsLt] at hyz
      | cons c cs => rfl
  | cons a as ih =>
    intro y z hxy hyz
    cases y with
    | nil => simp [charsLt] at hxy
    | cons b bs =>
      cases z with
      | nil => simp [charsLt] at hyz
      | cons c cs =>
        unfold charsLt at hxy hyz ⊢
        by_cases hab : a < b
        · rw [if_pos hab] at hxy
          by_cases hbc : b < c
          · rw [if_pos (lt_trans hab hbc)]
          · rw [if_neg hbc] at hyz
            by_cases hcb : c < b
            · rw [if_pos hcb] at hyz
              exact absurd hyz (by simp)
            · have hbceq : b = c := le_antisymm (not_lt.mp hcb) (not_lt.mp hbc)
              rw [if_pos (hbceq ▸ hab)]
        · rw [if_neg hab] at hxy
          by_cases hba : b < a
          · rw [if_pos hba] at hxy
            exact absurd hxy (by simp)
          · rw [if_neg hba] at hxy
            have habeq : a = b := le_antisymm (not_lt.mp hba) (not_lt.mp hab)
            by_cases hbc : b < c
            · rw [if_pos (habeq ▸ hbc)]
            · rw [if_neg hbc] at hyz
              by_cases hcb : c < b
              · rw [if_pos hcb] at hyz
                exact absurd hyz (by simp)
              · rw [if_neg hcb] at hyz
                have hbceq : b = c := le_antisymm (not_lt.mp hcb) (not_lt.mp hbc)
                have hac : ¬ a < c := by rw [habeq, hbceq]; exact lt_irrefl c
                have hca : ¬ c < a := by rw [habeq, hbceq]; exact lt_irrefl c
                rw [if_neg hac, if_neg hca]
                exact ih bs cs hxy hyz

theorem charsLt_conn : ∀ (x y : List Char), charsLt x y = false →
    charsLt y x = false → x = y := by
  intro x
  induction x with
  | nil =>
    intro y hxy _
    cases y with
    | nil => rfl
    | cons b bs => simp [charsLt] at hxy
  | cons a as ih =>
    intro y hxy hyx
    cases y with
    | nil => simp [charsLt] at hyx
    | cons b bs =>
      unfold charsLt at hxy hyx
      by_cases hab : a < b
      · rw [if_pos hab] at hxy
        exact absurd hxy (by simp)
      · rw [if_neg hab] at hxy
        by_cases hba : b < a
        · rw [if_pos hba] at hyx
          exact absurd hyx (by simp)
        · rw [if_neg hba] at hxy
          rw [if_neg hba, if_neg hab] at hyx
          have habeq : a = b := le_antisymm (not_lt.mp hba) (not_lt.mp hab)
          rw [habeq, ih bs hxy hyx]

theorem strLtB_of_not_both (a b : String) (h : charsLt b.data a.data = true) :
    charsLt a.data b.data = false := by
  cases hc : charsLt a.data b.data
  · rfl
  · have := charsLt_trans _ _ _ hc h
    rw [charsLt_irrefl] at this
    exact absurd this (by simp)

theorem strLeB_total (a b : String) : strLeB a b = true ∨ strLeB b a = true := by
  unfold strLeB strLtB
  cases hc : charsLt b.data a.data
  · left; rfl
  · right
    rw [strLtB_of_not_both a b hc]
    rfl

theorem strLeB_trans (a b c : String) (h1 : strLeB a b = true)
    (h2 : strLeB b c = true) : strLeB a c = true := by
  unfold strLeB strLtB at h1 h2 ⊢
  simp only [Bool.not_eq_true', Bool.not_eq_false] at h1 h2 ⊢
  cases hca : charsLt c.data a.data
  · rfl
  · exfalso
    by_cases hcb : charsLt c.data b.data = true
    · rw [hcb] at h2
      exact absurd h2 (by simp)
    · have hcbf : charsLt c.data b.data = false := by
        cases hx : charsLt c.data b.data
        · rfl
        · exact absurd hx hcb
      by_cases hbc : charsLt b.data c.data = true
      · have := charsLt_trans _ _ _ hbc hca
        rw [this] at h1
        exact absurd h1 (by simp)
      · have hbcf : charsLt b.data c.data = false := by
          cases hx : charsLt b.data c.data
          · rfl
          · exact absurd hx hbc
        have := charsLt_conn _ _ hbcf hcbf
        rw [this] at h1
        rw [h1] at hca
        exact absurd hca (by simp)

theorem sortEntLe_total (a b : SortEnt) : sortEntLe a b = true ∨ sortEntLe b a = true := by
  unfold sortEntLe
  rcases Nat.lt_trichotomy a.anchor b.anchor with h | h | h
  · left; simp [h]
  · rcases Nat.lt_trichotomy a.flag b.flag with h2 | h2 | h2
    · left; simp [h, h2]
    · rcases strLeB_total a.lbl b.lbl with h3 | h3
      · left; simp [h, h2, h3]
      · right; simp [h.symm, h2.symm, h3]
    · right; simp [h.symm, h2]
  · right; simp [h]

theorem sortEntLe_trans (a b c : SortEnt) (h1 : sortEntLe a b = true)
    (h2 : sortEntLe b c = true) : sortEntLe a c = true := by
  unfold sortEntLe at h1 h2 ⊢
  simp only [Bool.or_eq_true, Bool.and_eq_true, decide_eq_true_eq] at h1 h2 ⊢
  rcases h1 with h1 | ⟨e1, h1⟩
  · rcases h2 with h2 | ⟨e2, h2⟩
    · exact Or.inl (lt_trans h1 h2)
    · exact Or.inl (e2 ▸ h1)
  · rcases h2 with h2 | ⟨e2, h2⟩
    · exact Or.inl (e1 ▸ h2)
    · refine Or.inr ⟨e1.trans e2, ?_⟩
      rcases h1 with h1 | ⟨f1, h1⟩
      · rcases h2 with h2 | ⟨f2, h2⟩
        · exact Or.inl (lt_trans h1 h2)
        · exact Or.inl (f2 ▸ h1)
      · rcases h2 with h2 | ⟨f2, h2⟩
        · exact Or.inl (f1 ▸ h2)
        · exact Or.inr ⟨f1.trans f2, strLeB_trans _ _ _ h1 h2⟩

theorem stableInsert_mem {α : Type} (le : α → α → Bool) (x a : α) :
    ∀ (l : List α), a ∈ stableInsert le x l ↔ a = x ∨ a ∈ l := by
  intro l
  induction l with
  | nil => simp [stableInsert]
  | cons y ys ih =>
    unfold stableInsert
    by_cases h : le y x = true
    · rw [if_pos h]
      simp only [List.mem_cons, ih]
      tauto
    · rw [if_neg h]
      simp only [List.mem_cons]

theorem stableInsert_pairwise {α : Type} (le : α → α → Bool)
    (htot : ∀ a b, le a b = true ∨ le b a = true)
    (htr : ∀ a b c, le a b = true → le b c = true → le a c = true)
    (x : α) : ∀ (l : List α), l.Pairwise (fun a b => le a b = true) →
    (stableInsert le x l).Pairwise (fun a b => le a b = true) := by
  intro l
  induction l with
  | nil => intro _; simp [stableInsert]
  | cons y ys ih =>
    intro hp
    rw [List.pairwise_cons] at hp
    obtain ⟨hy, hys⟩ := hp
    unfold stableInsert
    by_cases h : le y x = true
    · rw [if_pos h, List.pairwise_cons]
      constructor
      · intro b hb
        rcases (stableInsert_mem le x b ys).mp hb with rfl | hb
        · exact h
        · exact hy b hb
      · exact ih hys
    · rw [if_neg h, List.pairwise_cons]
      have hxy : le x y = true := (htot x y).resolve_right h
      constructor
      · intro b hb
        rcases List.mem_cons.mp hb with rfl | hb
        · exact hxy
        · exact htr x y b hxy (hy b hb)
      · rw [List.pairwise_cons]
        exact ⟨hy, hys⟩

theorem stableSort_pairwise {α : Type} (le : α → α → Bool)
    (htot : ∀ a b, le a b = true ∨ le b a = true)
    (htr : ∀ a b c, le a b = true → le b c = true → le a c = true)
    (l : List α) :
    (stableSort le l).Pairwise (fun a b => le a b = true) := by
  unfold stableSort
  exact foldl_invariant (fun acc => acc.Pairwise (fun a b => le a b = true))
    (fun acc x => stableInsert le x acc) l [] (by simp)
    (fun acc x _ hacc => stableInsert_pairwise le htot htr x acc hacc)

theorem mem_stableSort_fold {α : Type} (le : α → α → Bool) (a : α) :
    ∀ (l : List α) (acc : List α), a ∈ acc ∨ a ∈ l →
    a ∈ l.foldl (fun acc x => stableInsert le x acc) acc := by
  intro l
  induction l with
  | nil =>
    intro acc h
    rcases h with h | h
    · exact h
    · simp at h
  | cons x xs ih =>
    intro acc h
    rw [List.foldl_cons]
    rcases h with h | h
    · exact ih _ (Or.inl ((stableInsert_mem le x a acc).mpr (Or.inr h)))
    · rcases List.mem_cons.mp h with rfl | h
      · exact ih _ (Or.inl ((stableInsert_mem le a a acc).mpr (Or.inl rfl)))
      · exact ih _ (Or.inr h)

theorem mem_stableSort_of_mem {α : Type} (le : α → α → Bool) (a : α)
    (l : List α) (h : a ∈ l) : a ∈ stableSort le l := by
  unfold stableSort
  exact mem_stableSort_fold le a l [] (Or.inr h)

theorem pairwise_sublist_pair {α : Type} {P : α → α → Prop} {x y : α} :
    ∀ {l : List α}, l.Pairwise P → x ∈ l → y ∈ l → x ≠ y → ¬ P y x →
    [x, y].Sublist l := by
  intro l
  induction l with
  | nil =>
    intro _ hx
    simp at hx
  | cons a rest ih =>
    intro hp hx hy hne hnp
    rw [List.pairwise_cons] at hp
    rcases List.mem_cons.mp hx with hxa | hx
    · rcases List.mem_cons.mp hy with hya | hy
      · exact absurd (hya.trans hxa.symm).symm hne
      · rw [hxa]
        exact List.Sublist.cons₂ a (List.singleton_sublist.mpr hy)
    · rcases List.mem_cons.mp hy with hya | hy
      · exact absurd (hya ▸ hp.1 x hx) hnp
      · exact List.Sublist.cons a (ih hp.2 hx hy hne hnp)

theorem orderSectionItems_before (latestItems olderOnly : List SpineEnt)
    (x y : SortEnt)
    (hx : x ∈ sortableOf latestItems olderOnly)
    (hy : y ∈ sortableOf latestItems olderOnly)
    (hne : x ≠ y) (hnp : ¬ sortEntLe y x = true) :
    [(x.key, x.payload), (y.key, y.payload)].Sublist
      (orderSectionItems latestItems olderOnly) := by
  unfold orderSectionItems
  have hsub : [x, y].Sublist
      (stableSort sortEntLe (sortableOf latestItems olderOnly)) :=
    pairwise_sublist_pair
      (stableSort_pairwise sortEntLe sortEntLe_total sortEntLe_trans _)
      (mem_stableSort_of_mem _ _ _ hx) (mem_stableSort_of_mem _ _ _ hy) hne hnp
  have hm := List.Sublist.map (fun e : SortEnt => (e.key, e.payload)) hsub
  simpa using hm

/-- C7: older-only item anchoring — within a section, an item absent from the
most recent period, with anchor the index of the first spine position at
least its own most-recent-known position, is emitted after every spine item
anchored strictly below it and before the spine item at its anchor and every
later one; when its anchor equals the spine length (its position exceeds
every spine position) it lands after all spine items; equally-anchored
older-only items are emitted in normalized-label order. -/
theorem c7_older_only_anchoring (latestItems olderOnly : List SpineEnt)
    (t : SpineEnt) (ht : t ∈ olderOnly) :
    (∀ s ∈ spineOf latestItems,
      anchorIndexForPos (spinePosOf latestItems) t.pos
        ≤ (spinePosOf latestItems).findIdx (fun q => q = s.pos) →
      [(t.key, t.payload), (s.key, s.payload)].Sublist
        (orderSectionItems latestItems olderOnly)) ∧
    (∀ s ∈ spineOf latestItems,
      (spinePosOf latestItems).findIdx (fun q => q = s.pos)
        < anchorIndexForPos (spinePosOf latestItems) t.pos →
      [(s.key, s.payload), (t.key, t.payload)].Sublist
        (orderSectionItems latestItems olderOnly)) ∧
    (anchorIndexForPos (spinePosOf latestItems) t.pos
        = (spinePosOf latestItems).length →
      ∀ s ∈ spineOf latestItems,
      [(s.key, s.payload), (t.key, t.payload)].Sublist
        (orderSectionItems latestItems olderOnly)) ∧
    (∀ u ∈ olderOnly,
      anchorIndexForPos (spinePosOf latestItems) u.pos
        = anchorIndexForPos (spinePosOf latestItems) t.pos →
      strLtB (normalizeLabel t.payload.item_label)
          (normalizeLabel u.payload.item_label) = true →
      [(t.key, t.payload), (u.key, u.payload)].Sublist
        (orderSectionItems latestItems olderOnly)) := by
  have hbefore2 : ∀ s ∈ spineOf latestItems,
      (spinePosOf latestItems).findIdx (fun q => q = s.pos)
        < anchorIndexForPos (spinePosOf latestItems) t.pos →
      [(s.key, s.payload), (t.key, t.payload)].Sublist
        (orderSectionItems latestItems olderOnly) := by
    intro s hs hlt
    have h := orderSectionItems_before latestItems olderOnly
      (spineEnt (spinePosOf latestItems) s) (olderEnt (spinePosOf latestItems) t)
      (List.mem_append_right _ (List.mem_map_of_mem _ hs))
      (List.mem_append_left _ (List.mem_map_of_mem _ ht))
      (fun h => by simpa [olderEnt, spineEnt] using congrArg SortEnt.flag h)
      (by simp only [sortEntLe, olderEnt, spineEnt, Bool.or_eq_true,
            Bool.and_eq_true, decide_eq_true_eq]
          push_neg
          omega)
    simpa [olderEnt, spineEnt] using h
  refine ⟨?_, hbefore2, ?_, ?_⟩
  · intro s hs hge
    have h := orderSectionItems_before latestItems olderOnly
      (olderEnt (spinePosOf latestItems) t) (spineEnt (spinePosOf latestItems) s)
      (List.mem_append_left _ (List.mem_map_of_mem _ ht))
      (List.mem_append_right _ (List.mem_map_of_mem _ hs))
      (fun h => by simpa [olderEnt, spineEnt] using congrArg SortEnt.flag h)
      (by simp only [sortEntLe, olderEnt, spineEnt, Bool.or_eq_true,
            Bool.and_eq_true, decide_eq_true_eq]
          push_neg
          omega)
    simpa [olderEnt, spineEnt] using h
  · intro hlen s hs
    apply hbefore2 s hs
    rw [hlen]
    exact List.findIdx_lt_length_of_exists
      ⟨s.pos, List.mem_map_of_mem _ hs, by simp⟩
  · intro u hu heq hlbl
    have hlne : normalizeLabel t.payload.item_label
        ≠ normalizeLabel u.payload.item_label := by
      intro h
      rw [h] at hlbl
      unfold strLtB at hlbl
      rw [charsLt_irrefl] at hlbl
      exact absurd hlbl (by simp)
    have h := orderSectionItems_before latestItems olderOnly
      (olderEnt (spinePosOf latestItems) t) (olderEnt (spinePosOf latestItems) u)
      (List.mem_append_left _ (List.mem_map_of_mem _ ht))
      (List.mem_append_left _ (List.mem_map_of_mem _ hu))
      (fun h => absurd (by simpa [olderEnt] using congrArg SortEnt.lbl h) hlne)
      (by simp only [sortEntLe, olderEnt, Bool.or_eq_true,
            Bool.and_eq_true, decide_eq_true_eq]
          intro hcon
          rcases hcon with h | ⟨-, h | ⟨-, h⟩⟩
          · exact absurd h (by rw [heq]; exact lt_irrefl _)
          · exact absurd h (lt_irrefl 0)
          · unfold strLeB at h
            rw [hlbl] at h
            simp at h)
    simpa [olderEnt] using h

/-- C7 witness (Scenario D): five spine items at positions 0 through 4 and an
older-only item at position 7 — the older-only item is emitted after every
spine item, and before none. -/
theorem c7_witness :
    (∀ s ∈ spineOf c7Latest,
      anchorIndexForPos (spinePosOf c7Latest) c7Old.pos
        ≤ (spinePosOf c7Latest).findIdx (fun q => q = s.pos) →
      [(c7Old.key, c7Old.payload), (s.key, s.payload)].Sublist
        (orderSectionItems c7Latest [c7Old])) ∧
    (∀ s ∈ spineOf c7Latest,
      (spinePosOf c7Latest).findIdx (fun q => q = s.pos)
        < anchorIndexForPos (spinePosOf c7Latest) c7Old.pos →
      [(s.key, s.payload), (c7Old.key, c7Old.payload)].Sublist
        (orderSectionItems c7Latest [c7Old])) ∧
    (anchorIndexForPos (spinePosOf c7Latest) c7Old.pos
        = (spinePosOf c7Latest).length →
      ∀ s ∈ spineOf c7Latest,
      [(s.key, s.payload), (c7Old.key, c7Old.payload)].Sublist
        (orderSectionItems c7Latest [c7Old])) ∧
    (∀ u ∈ [c7Old],
      anchorIndexForPos (spinePosOf c7Latest) u.pos
        = anchorIndexForPos (spinePosOf c7Latest) c7Old.pos →
      strLtB (normalizeLabel c7Old.payload.item_label)
          (normalizeLabel u.payload.item_label) = true →
      [(c7Old.key, c7Old.payload), (u.key, u.payload)].Sublist
        (orderSectionItems c7Latest [c7Old])) :=
  c7_older_only_anchoring c7Latest [c7Old] c7Old (by decide)

theorem foldl_each {α β : Type} (Q : α → β → Prop) (f : β → α → β)
    (hest : ∀ b a, Q a (f b a)) (hmono : ∀ b a c, Q c b → Q c (f b a)) :
    ∀ (l : List α) (init : β), ∀ a ∈ l, Q a (l.foldl f init) := by
  intro l
  induction l with
  | nil =>
    intro init a ha
    simp at ha
  | cons x xs ih =>
    intro init a ha
    rw [List.foldl_cons]
    rcases List.mem_cons.mp ha with rfl | ha
    · exact foldl_invariant (Q a) f xs (f init a) (hest init a)
        (fun b c _ h => hmono b c a h)
    · exact ih _ a ha

theorem mem_of_mem_stableSort {α : Type} (le : α → α → Bool) (a : α) :
    ∀ (l : List α) (acc : List α),
    a ∈ l.foldl (fun acc x => stableInsert le x acc) acc → a ∈ acc ∨ a ∈ l := by
  intro l
  induction l with
  | nil =>
    intro acc h
    exact Or.inl h
  | cons x xs ih =>
    intro acc h
    rw [List.foldl_cons] at h
    rcases ih _ h with h | h
    · rcases (stableInsert_mem le x a acc).mp h with rfl | h
      · exact Or.inr (List.mem_cons_self _ _)
      · exact Or.inl h
    · exact Or.inr (List.mem_cons_of_mem _ h)

theorem mem_stableSort_iff {α : Type} (le : α → α → Bool) (a : α) (l : List α) :
    a ∈ stableSort le l ↔ a ∈ l := by
  constructor
  · intro h
    rcases mem_of_mem_stableSort le a l [] h with h | h
    · simp at h
    · exact h
  · exact mem_stableSort_of_mem le a l

theorem mem_odKeys_iff_odHas {α : Type} (d : ODict α) (k : String) :
    k ∈ odKeys d ↔ odHas d k = true := by
  induction d with
  | nil => simp [odKeys, odHas, odGet?]
  | cons p rest ih =>
    by_cases h : p.1 = k
    · simp [odKeys, odHas, odGet?, h]
    · have h1 : k ∈ odKeys (p :: rest) ↔ k ∈ odKeys rest := by
        simp [odKeys, Ne.symm h]
      have h2 : odHas (p :: rest) k = odHas rest k := by
        simp [odHas, odGet?, h]
      rw [h1, h2, ih]

theorem mem_odKeys_odSet_iff {α : Type} (d : ODict α) (k k' : String) (v : α) :
    k' ∈ odKeys (odSet d k v) ↔ k' = k ∨ k' ∈ odKeys d := by
  rw [mem_odKeys_iff_odHas, odHas_odSet, mem_odKeys_iff_odHas]
  simp

theorem mem_allValueKeys (d : ODict (List Row)) (p : String × List Row)
    (r : Row) (y : String) (hp : p ∈ d) (hr : r ∈ p.2)
    (hy : y ∈ odKeys r.values) : y ∈ allValueKeys d := by
  unfold allValueKeys
  refine foldl_each
    (fun (q : String × List Row) acc => r ∈ q.2 → y ∈ acc)
    _ ?_ ?_ d [] p hp hr
  · intro b q hrq
    refine foldl_each (fun (r' : Row) acc => r' = r → y ∈ acc) _ ?_ ?_ q.2 b r hrq rfl
    · intro b' r' he
      subst he
      exact List.mem_append_right _ hy
    · intro b' r' c hc he
      exact List.mem_append_left _ (hc he)
  · intro b q c hc hrq
    exact foldl_invariant (fun acc => y ∈ acc) _ q.2 b (hc hrq)
      (fun b' r' _ h => List.mem_append_left _ h)

theorem mem_dedupFirst_of (y : String) (l : List String) (h : y ∈ l) :
    y ∈ dedupFirst l := by
  unfold dedupFirst
  refine foldl_each (fun (a : String) acc => a = y → y ∈ acc) _ ?_ ?_ l [] y h rfl
  · intro b a he
    subst he
    by_cases hc : b.contains a = true
    · rw [if_pos hc]
      simpa using hc
    · rw [if_neg hc]
      exact List.mem_append_right _ (List.mem_singleton.mpr rfl)
  · intro b a c hc he
    by_cases hcc : b.contains a = true
    · rw [if_pos hcc]
      exact hc he
    · rw [if_neg hcc]
      exact List.mem_append_left _ (hc he)

theorem mem_collectAllTargetYears_of (d : ODict (List Row)) (y : String)
    (h : y ∈ allValueKeys d) : y ∈ collectAllTargetYears d := by
  unfold collectAllTargetYears
  exact mem_stableSort_of_mem _ _ _ (mem_dedupFirst_of y _ h)

theorem padYearStep_shape (vals : ODict PyVal) (y : String) :
    padYearStep vals y = vals ∨ padYearStep vals y = odSet vals y (.vnum 0) := by
  unfold padYearStep
  cases h : odGet? vals y with
  | none => right; rfl
  | some v => cases v <;> simp

theorem padYearStep_covers (vals : ODict PyVal) (y : String) :
    ∃ v, odGet? (padYearStep vals y) y = some v ∧ v ≠ .vnone := by
  cases h : odGet? vals y with
  | none =>
    refine ⟨.vnum 0, ?_, by simp⟩
    simp only [padYearStep, h]
    exact odGet?_odSet_self _ _ _
  | some v =>
    cases v with
    | vnone =>
      refine ⟨.vnum 0, ?_, by simp⟩
      simp only [padYearStep, h]
      exact odGet?_odSet_self _ _ _
    | vnum n =>
      refine ⟨.vnum n, ?_, by simp⟩
      simp only [padYearStep, h]
    | vstr s =>
      refine ⟨.vstr s, ?_, by simp⟩
      simp only [padYearStep, h]
    | vdictV w =>
      refine ⟨.vdictV w, ?_, by simp⟩
      simp only [padYearStep, h]
    | vdictNoV =>
      refine ⟨.vdictNoV, ?_, by simp⟩
      simp only [padYearStep, h]

theorem padYearStep_preserves (vals : ODict PyVal) (y y' : String)
    (h : ∃ v, odGet? vals y = some v ∧ v ≠ .vnone) :
    ∃ v, odGet? (padYearStep vals y') y = some v ∧ v ≠ .vnone := by
  by_cases he : y = y'
  · subst he
    exact padYearStep_covers vals y
  · obtain ⟨v, hv, hne⟩ := h
    rcases padYearStep_shape vals y' with hs | hs
    · refine ⟨v, ?_, hne⟩
      rw [hs]
      exact hv
    · refine ⟨v, ?_, hne⟩
      rw [hs, odGet?_odSet_ne _ _ _ _ he]
      exact hv

theorem padFold_covers (target : List String) (vals : ODict PyVal) (y : String)
    (hy : y ∈ target) :
    ∃ v, odGet? (target.foldl padYearStep vals) y = some v ∧ v ≠ .vnone := by
  refine foldl_each (fun (a : String) acc =>
    a = y → ∃ v, odGet? acc y = some v ∧ v ≠ .vnone) padYearStep ?_ ?_
    target vals y hy rfl
  · intro b a he
    subst he
    exact padYearStep_covers b a
  · intro b a c hc he
    exact padYearStep_preserves b y a (hc he)

theorem padFold_keys (target : List String) (vals : ODict PyVal) (y : String)
    (hy : y ∈ odKeys (target.foldl padYearStep vals)) :
    y ∈ odKeys vals ∨ y ∈ target := by
  refine foldl_invariant
    (fun acc => ∀ z ∈ odKeys acc, z ∈ odKeys vals ∨ z ∈ target)
    padYearStep target vals (fun z hz => Or.inl hz) ?_ y hy
  intro b a ha hb z hz
  rcases padYearStep_shape b a with hs | hs
  · exact hb z (hs ▸ hz)
  · rw [hs] at hz
    rcases (mem_odKeys_odSet_iff b a z (.vnum 0)).mp hz with rfl | hz
    · exact Or.inr ha
    · exact hb z hz

theorem padMissingYears_covers (X : ODict Payload) (tgt : List String)
    (k : String) (p : Payload) (hp : (k, p) ∈ padMissingYears X tgt)
    (y : String) (hy : y ∈ tgt) :
    ∃ v, odGet? p.values y = some v ∧ v ≠ .vnone := by
  unfold padMissingYears at hp
  rcases List.mem_map.mp hp with ⟨kp0, hkp0, heq⟩
  injection heq with h1 h2
  subst h2
  exact padFold_covers tgt kp0.2.values y hy

theorem padMissingYears_keys (X : ODict Payload) (tgt : List String)
    (k : String) (p : Payload) (hp : (k, p) ∈ padMissingYears X tgt)
    (hX : ∀ kp ∈ X, ∀ y ∈ odKeys (kp.2 : Payload).values, y ∈ tgt) :
    ∀ y ∈ odKeys p.values, y ∈ tgt := by
  unfold padMissingYears at hp
  rcases List.mem_map.mp hp with ⟨kp0, hkp0, heq⟩
  injection heq with h1 h2
  subst h2
  intro y hy
  rcases padFold_keys tgt kp0.2.values y hy with h | h
  · exact hX kp0 hkp0 y h
  · exact h

theorem foldl_ends_pad {α : Type} (tgt : List String)
    (f : ODict Payload → α → ODict Payload)
    (hf : ∀ b a, ∃ X, f b a = padMissingYears X tgt) :
    ∀ (l : List α) (acc : ODict Payload),
    l.foldl f acc = acc ∨ ∃ X, l.foldl f acc = padMissingYears X tgt := by
  intro l
  induction l with
  | nil =>
    intro acc
    left
    rfl
  | cons x xs ih =>
    intro acc
    rw [List.foldl_cons]
    rcases ih (f acc x) with h | h
    · right
      rw [h]
      exact hf acc x
    · right
      exact h

theorem odGet?_of_mem_nodup {α : Type} (d : ODict α) (p : String × α)
    (hnd : (odKeys d).Nodup) (hp : p ∈ d) : odGet? d p.1 = some p.2 := by
  induction d with
  | nil => simp at hp
  | cons q rest ih =>
    rcases List.mem_cons.mp hp with rfl | hp
    · simp [odGet?]
    · have hnd' := List.nodup_cons.mp (show (q.1 :: odKeys rest).Nodup from hnd)
      have hq : q.1 ≠ p.1 := by
        intro he
        have h1 : q.1 ∈ odKeys rest := by
          rw [he]
          simpa [odKeys] using List.mem_map_of_mem Prod.fst hp
        exact hnd'.1 h1
      rw [odGet?, if_neg hq]
      exact ih hnd'.2 hp

theorem odKeys_nodup_odSet {α : Type} (d : ODict α) (k : String) (v : α)
    (h : (odKeys d).Nodup) : (odKeys (odSet d k v)).Nodup := by
  induction d with
  | nil => simp [odSet, odKeys]
  | cons q rest ih =>
    have hh := List.nodup_cons.mp (show (q.1 :: odKeys rest).Nodup from h)
    by_cases hq : q.1 = k
    · simp only [odSet, if_pos hq]
      refine List.nodup_cons.mpr ⟨?_, hh.2⟩
      rw [← hq]
      exact hh.1
    · simp only [odSet, if_neg hq]
      refine List.nodup_cons.mpr ⟨?_, ih hh.2⟩
      intro hmem
      rcases (mem_odKeys_odSet_iff rest k q.1 v).mp hmem with h1 | h1
      · exact hq h1
      · exact hh.1 h1

theorem flatAllOf_nodup (yearsJson : ODict Stmt) :
    (odKeys (flatAllOf yearsJson)).Nodup := by
  unfold flatAllOf
  exact foldl_invariant (fun fa => (odKeys fa).Nodup) _ yearsJson []
    (by simp [odKeys]) (fun b a _ hb => odKeys_nodup_odSet b a.1 _ hb)

theorem odSet_eq_of_get {α : Type} (d : ODict α) (k : String) (v : α)
    (h : odGet? d k = some v) : odSet d k v = d := by
  induction d with
  | nil => simp [odGet?] at h
  | cons q rest ih =>
    by_cases hq : q.1 = k
    · rw [odGet?, if_pos hq] at h
      cases h
      simp only [odSet, if_pos hq]
      rw [← hq]
    · rw [odGet?, if_neg hq] at h
      simp only [odSet, if_neg hq]
      rw [ih h]

theorem valueKeyLists_odSet (d : ODict (List Row)) (k : String) (v : List Row) :
    valueKeyLists (odSet d k v)
      = odSet (valueKeyLists d) k (v.map (fun r => odKeys r.values)) := by
  induction d with
  | nil => rfl
  | cons q rest ih =>
    by_cases hq : q.1 = k
    · have h1 : odSet (q :: rest) k v = (k, v) :: rest := by
        simp [odSet, hq]
      have h2 : odSet (valueKeyLists (q :: rest)) k
            (v.map (fun r => odKeys r.values))
          = (k, v.map (fun r => odKeys r.values)) :: valueKeyLists rest := by
        simp [valueKeyLists, odSet, hq]
      rw [h1, h2]
      rfl
    · have h1 : odSet (q :: rest) k v = q :: odSet rest k v := by
        simp [odSet, hq]
      have h2 : odSet (valueKeyLists (q :: rest)) k
            (v.map (fun r => odKeys r.values))
          = (q.1, q.2.map (fun r => odKeys r.values)) ::
            odSet (valueKeyLists rest) k (v.map (fun r => odKeys r.values)) := by
        simp [valueKeyLists, odSet, hq]
      rw [h1, h2, ← ih]
      rfl

theorem allValueKeys_eq_vkl (d : ODict (List Row)) :
    allValueKeys d = (valueKeyLists d).foldl
      (fun acc q => q.2.foldl (fun a ks => a ++ ks) acc) [] := by
  unfold allValueKeys valueKeyLists
  rw [List.foldl_map]
  congr 1
  funext acc p
  rw [List.foldl_map]

theorem allValueKeys_congr (d1 d2 : ODict (List Row))
    (h : valueKeyLists d1 = valueKeyLists d2) :
    allValueKeys d1 = allValueKeys d2 := by
  rw [allValueKeys_eq_vkl, allValueKeys_eq_vkl, h]

theorem collectAllTargetYears_congr (d1 d2 : ODict (List Row))
    (h : valueKeyLists d1 = valueKeyLists d2) :
    collectAllTargetYears d1 = collectAllTargetYears d2 := by
  unfold collectAllTargetYears
  rw [allValueKeys_congr d1 d2 h]

theorem cleanedValues_keys (vals : ODict PyVal) :
    ∀ y ∈ odKeys (cleanedValues vals), y ∈ odKeys vals := by
  intro y hy
  unfold cleanedValues at hy
  refine foldl_invariant (fun acc => ∀ z ∈ odKeys acc, z ∈ odKeys vals)
    _ vals [] ?_ ?_ y hy
  · intro z hz
    simp [odKeys] at hz
  · intro b a ha hb z hz
    rcases (mem_odKeys_odSet_iff b a.1 z _).mp hz with rfl | hz
    · simpa [odKeys] using List.mem_map_of_mem Prod.fst ha
    · exact hb z hz

theorem mergeValsBlock_keys (staleYr : String) (clean : Bool)
    (vals rowVals res : ODict PyVal)
    (hres : mergeValsBlock staleYr clean vals rowVals = .ok res) :
    ∀ y ∈ odKeys res, y ∈ odKeys vals ∨ y ∈ odKeys rowVals := by
  unfold mergeValsBlock at hres
  refine foldlM_invariant
    (fun acc => ∀ y ∈ odKeys acc, y ∈ odKeys vals ∨ y ∈ odKeys rowVals)
    _ rowVals vals res (fun y hy => Or.inl hy) ?_ hres
  intro b a r ha hb hstep
  have hmem : a.1 ∈ odKeys rowVals := by
    simpa [odKeys] using List.mem_map_of_mem Prod.fst ha
  by_cases h : odHas b a.1 = true
  · simp only [h, if_true] at hstep
    cases hnc : newerCheck staleYr b with
    | error e =>
      rw [hnc] at hstep
      simp [Bind.bind, Except.bind] at hstep
    | ok newer =>
      rw [hnc] at hstep
      simp only [Bind.bind, Except.bind] at hstep
      cases newer with
      | true =>
        simp only [if_true, Pure.pure, Except.pure] at hstep
        cases hstep
        intro y hy
        rcases (mem_odKeys_odSet_iff b a.1 y _).mp hy with rfl | hy
        · exact Or.inr hmem
        · exact hb y hy
      | false =>
        simp only [Bool.false_eq_true, if_false, Pure.pure, Except.pure] at hstep
        cases hstep
        exact hb
  · simp only [h, Bool.false_eq_true, if_false, Pure.pure, Except.pure] at hstep
    cases hstep
    intro y hy
    rcases (mem_odKeys_odSet_iff b a.1 y _).mp hy with rfl | hy
    · exact Or.inr hmem
    · exact hb y hy

theorem mergeOrCreate_cases_vals (staleYr sec : String) (clean ig : Bool)
    (mk : Option String) (u : ODict Payload) (row : Row) (u' : ODict Payload)
    (h : mergeOrCreate staleYr sec clean ig mk u row = .ok u') :
    u' = u ∨
    (∃ m pl vals, odGet? u m = some pl ∧
      mergeValsBlock staleYr clean pl.values row.values = .ok vals ∧
      u' = odSet u m { pl with values := vals }) ∨
    (u' = odSet u (itmKeyOf ig row ++ "|" ++ sec) (rowPayload row)) := by
  cases mk with
  | none =>
    simp only [mergeOrCreate, Pure.pure, Except.pure] at h
    cases h
    exact Or.inr (Or.inr rfl)
  | some m =>
    simp only [mergeOrCreate] at h
    cases hrev : strStarts "review_needed" m with
    | true =>
      rw [hrev] at h
      simp only [if_true, Pure.pure, Except.pure] at h
      cases h
      exact Or.inl rfl
    | false =>
      rw [hrev] at h
      simp only [Bool.false_eq_true, if_false] at h
      cases hget : odGet? u m with
      | none =>
        simp only [hget, Pure.pure, Except.pure] at h
        cases h
        exact Or.inl rfl
      | some pl =>
        simp only [hget] at h
        cases hmv : mergeValsBlock staleYr clean pl.values row.values with
        | error e =>
          simp [hmv, Bind.bind, Except.bind] at h
        | ok vals =>
          simp only [hmv, Bind.bind, Except.bind, Pure.pure, Except.pure] at h
          cases h
          exact Or.inr (Or.inl ⟨m, pl, vals, hget, hmv, rfl⟩)

theorem mergeOrCreate_keysIn (staleYr sec : String) (clean ig : Bool)
    (mk : Option String) (u : ODict Payload) (row : Row) (u' : ODict Payload)
    (U : List String)
    (hU : ∀ kp ∈ u, ∀ y ∈ odKeys (kp.2 : Payload).values, y ∈ U)
    (hrow : ∀ y ∈ odKeys row.values, y ∈ U)
    (h : mergeOrCreate staleYr sec clean ig mk u row = .ok u') :
    ∀ kp ∈ u', ∀ y ∈ odKeys (kp.2 : Payload).values, y ∈ U := by
  rcases mergeOrCreate_cases_vals staleYr sec clean ig mk u row u' h with
    h1 | ⟨m, pl, vals, hget, hmv, h1⟩ | h1
  · rw [h1]
    exact hU
  · subst h1
    intro kp hkp
    rcases mem_odSet hkp with heq | hkp
    · subst heq
      intro y hy
      rcases mergeValsBlock_keys staleYr clean pl.values row.values vals hmv y hy
        with hc | hc
      · exact hU (m, pl) (odGet?_mem hget) y hc
      · exact hrow y hc
    · exact hU kp hkp
  · subst h1
    intro kp hkp
    rcases mem_odSet hkp with heq | hkp
    · subst heq
      intro y hy
      exact hrow y (cleanedValues_keys row.values y hy)
    · exact hU kp hkp

theorem processRow_keysIn (staleYr sec : String) (srows : List Row)
    (ask : Option String) (gim : List (Nat × String)) (u : ODict Payload)
    (p : Nat × Row) (u' : ODict Payload) (U : List String)
    (hU : ∀ kp ∈ u, ∀ y ∈ odKeys (kp.2 : Payload).values, y ∈ U)
    (hrow : ∀ y ∈ odKeys p.2.values, y ∈ U)
    (h : processRow staleYr sec srows ask gim u p = .ok u') :
    ∀ kp ∈ u', ∀ y ∈ odKeys (kp.2 : Payload).values, y ∈ U := by
  unfold processRow at h
  rcases except_bind_ok h with ⟨u1, h1, h2⟩
  exact mergeOrCreate_keysIn staleYr sec true _ _ u1 p.2 u' U
    (mergeOrCreate_keysIn staleYr sec false _ _ u p.2 u1 U hU hrow h1) hrow h2

theorem mem_groupRowsAfterRewrite (origRows newRows : List Row) (sec : String)
    (r : Row) (h : r ∈ groupRowsAfterRewrite origRows newRows sec) :
    r ∈ newRows := by
  unfold groupRowsAfterRewrite at h
  rcases List.mem_map.mp h with ⟨pr, hpr, heq⟩
  obtain ⟨r1, r2⟩ := pr
  have hz := List.mem_of_mem_filter hpr
  rw [← heq]
  exact (List.mem_zip hz).2

theorem processSection_keysIn (staleYr : String) (gmap : ODict (Option String))
    (origRows newRows : List Row) (u : ODict Payload) (sec : String)
    (u' : ODict Payload) (U : List String)
    (hU : ∀ kp ∈ u, ∀ y ∈ odKeys (kp.2 : Payload).values, y ∈ U)
    (hrows : ∀ r ∈ newRows, ∀ y ∈ odKeys (r : Row).values, y ∈ U)
    (h : processSection staleYr gmap origRows newRows u sec = .ok u') :
    ∀ kp ∈ u', ∀ y ∈ odKeys (kp.2 : Payload).values, y ∈ U := by
  unfold processSection at h
  refine foldlM_invariant
    (fun acc => ∀ kp ∈ acc, ∀ y ∈ odKeys (kp.2 : Payload).values, y ∈ U)
    _ _ u u' hU ?_ h
  intro b a r ha hb hstep
  exact processRow_keysIn staleYr sec _ _ _ b a r U hb
    (hrows a.2 (mem_groupRowsAfterRewrite origRows newRows sec a.2
      (snd_mem_of_mem_enum ha))) hstep

theorem mergeFiling_keysIn (staleYr : String) (u : ODict Payload)
    (rows : List Row) (m : ODict Payload × List Row) (U : List String)
    (hU : ∀ kp ∈ u, ∀ y ∈ odKeys (kp.2 : Payload).values, y ∈ U)
    (hrows : ∀ r ∈ rows, ∀ y ∈ odKeys (r : Row).values, y ∈ U)
    (h : mergeFiling staleYr u rows = .ok m) :
    (∀ kp ∈ m.1, ∀ y ∈ odKeys (kp.2 : Payload).values, y ∈ U) ∧
    m.2 = rewriteSectionMeta u (buildGreedySectionMap u rows) rows := by
  unfold mergeFiling at h
  rcases except_bind_ok h with ⟨u1, h1, h2⟩
  cases h2
  have hnew : ∀ r ∈ rewriteSectionMeta u (buildGreedySectionMap u rows) rows,
      ∀ y ∈ odKeys (r : Row).values, y ∈ U := by
    obtain ⟨f, hfeq, hfpres⟩ :=
      rewriteSectionMeta_exists_map u (buildGreedySectionMap u rows) rows
    rw [hfeq]
    intro r hr
    rcases List.mem_map.mp hr with ⟨r0, hr0, heq⟩
    intro y hy
    rw [← heq] at hy
    rw [(hfpres r0).2.2.1] at hy
    exact hrows r0 hr0 y hy
  constructor
  · refine foldlM_invariant
      (fun acc => ∀ kp ∈ acc, ∀ y ∈ odKeys (kp.2 : Payload).values, y ∈ U)
      _ _ u u1 hU ?_ h1
    intro b a r ha hb hstep
    exact processSection_keysIn staleYr _ rows _ b a r U hb hnew hstep
  · rfl

theorem zeroOutPayload_keysIn (flatAll : ODict (List Row)) (y2a : ODict String)
    (p : Payload) (U : List String)
    (hU : ∀ y ∈ odKeys p.values, y ∈ U) :
    ∀ y ∈ odKeys (zeroOutPayload flatAll y2a p).values, y ∈ U := by
  unfold zeroOutPayload
  intro y hy
  refine foldl_invariant (fun acc => ∀ z ∈ odKeys acc, z ∈ U)
    _ (odKeys p.values) p.values hU ?_ y hy
  intro b a ha hb z hz
  rcases zeroYearStep_shape flatAll y2a p b a with hs | hs
  · exact hb z (hs ▸ hz)
  · rw [hs] at hz
    rcases (mem_odKeys_odSet_iff b a z _).mp hz with rfl | hz
    · exact hU z ha
    · exact hb z hz

theorem zeroOutOverlappingYears_keysIn (unified : ODict Payload)
    (flatAll : ODict (List Row)) (ys : List String) (U : List String)
    (hU : ∀ kp ∈ unified, ∀ y ∈ odKeys (kp.2 : Payload).values, y ∈ U) :
    ∀ kp ∈ zeroOutOverlappingYears unified flatAll ys,
      ∀ y ∈ odKeys (kp.2 : Payload).values, y ∈ U := by
  unfold zeroOutOverlappingYears
  intro kp hkp
  rcases List.mem_map.mp hkp with ⟨kp0, hkp0, heq⟩
  rw [← heq]
  exact zeroOutPayload_keysIn _ _ kp0.2 U (hU kp0 hkp0)

theorem patchLatestSectionLabels_keysIn (unified : ODict Payload)
    (latestRows : List Row) (U : List String)
    (hU : ∀ kp ∈ unified, ∀ y ∈ odKeys (kp.2 : Payload).values, y ∈ U) :
    ∀ kp ∈ patchLatestSectionLabels unified latestRows,
      ∀ y ∈ odKeys (kp.2 : Payload).values, y ∈ U := by
  unfold patchLatestSectionLabels
  intro kp hkp
  rcases List.mem_map.mp hkp with ⟨kp0, hkp0, heq⟩
  cases hg : odGet? (latestRows.foldl (fun m r =>
      if odHas m r.secKeyOf then m
      else odSet m r.secKeyOf (r.section_label, r.section_gaap)) []) kp0.2.secKeyOf with
  | none =>
    simp only [hg] at heq
    rw [← heq]
    exact hU kp0 hkp0
  | some ll =>
    simp only [hg] at heq
    rw [← heq]
    exact hU kp0 hkp0

theorem bySectionOf_mem (unified : ODict Payload)
    (q : String × List (String × Payload)) (hq : q ∈ bySectionOf unified) :
    ∀ kp ∈ q.2, kp ∈ unified := by
  unfold bySectionOf at hq
  refine foldl_invariant
    (fun bs => ∀ q' ∈ bs, ∀ kp ∈ (q'.2 : List (String × Payload)), kp ∈ unified)
    _ unified [] (by simp) ?_ q hq
  intro b a ha hb q' hq' kp hkp
  cases hg : odGet? b a.2.secKeyOf with
  | some l =>
    simp only [hg] at hq'
    rcases mem_odSet hq' with heq | hq'
    · subst heq
      rcases List.mem_append.mp hkp with hkp | hkp
      · exact hb (a.2.secKeyOf, l) (odGet?_mem hg) kp hkp
      · rw [List.mem_singleton.mp hkp]
        exact ha
    · exact hb q' hq' kp hkp
  | none =>
    simp only [hg] at hq'
    rcases mem_odSet hq' with heq | hq'
    · subst heq
      rw [List.mem_singleton.mp hkp]
      exact ha
    · exact hb q' hq' kp hkp

theorem splitSpine_mem (pm : PosMap) (ly : String) (ys : List String)
    (sk : String) (items : List (String × Payload)) (t : SpineEnt)
    (ht : t ∈ (splitSpine pm ly ys sk items).1 ∨
      t ∈ (splitSpine pm ly ys sk items).2) :
    (t.key, t.payload) ∈ items := by
  unfold splitSpine at ht
  refine foldl_invariant
    (fun st : List SpineEnt × List SpineEnt =>
      ∀ t', (t' ∈ st.1 ∨ t' ∈ st.2) → ((t' : SpineEnt).key, t'.payload) ∈ items)
    _ items ([], []) (by simp) ?_ t ht
  intro b a ha hb t' ht'
  cases hg : odGet? (pmGet pm (sk, itemIdentityFromUnifiedKey sk a.1 a.2)) ly with
  | some p =>
    simp only [hg] at ht'
    rcases ht' with ht' | ht'
    · rcases List.mem_append.mp ht' with h | h
      · exact hb t' (Or.inl h)
      · rw [List.mem_singleton.mp h]
        simpa using ha
    · exact hb t' (Or.inr ht')
  | none =>
    simp only [hg] at ht'
    rcases ht' with ht' | ht'
    · exact hb t' (Or.inl ht')
    · rcases List.mem_append.mp ht' with h | h
      · exact hb t' (Or.inr h)
      · rw [List.mem_singleton.mp h]
        simpa using ha

theorem orderSectionItems_mem (latestItems olderOnly : List SpineEnt)
    (pr : String × Payload) (hpr : pr ∈ orderSectionItems latestItems olderOnly) :
    ∃ t : SpineEnt, (t ∈ latestItems ∨ t ∈ olderOnly) ∧
      pr = (t.key, t.payload) := by
  unfold orderSectionItems at hpr
  rcases List.mem_map.mp hpr with ⟨e, he, heq⟩
  have he' := (mem_stableSort_iff _ _ _).mp he
  unfold sortableOf at he'
  rcases List.mem_append.mp he' with h | h
  · rcases List.mem_map.mp h with ⟨t, ht, heq2⟩
    refine ⟨t, Or.inr ht, ?_⟩
    rw [← heq, ← heq2]
    rfl
  · rcases List.mem_map.mp h with ⟨t, ht, heq2⟩
    refine ⟨t, Or.inl ((mem_stableSort_iff spineLe t latestItems).mp ht), ?_⟩
    rw [← heq, ← heq2]
    rfl

theorem orderStep_keysIn (unified : ODict Payload) (pm : PosMap)
    (ly : String) (ys : List String) (tgt : List String)
    (ordered : ODict Payload) (sk : String)
    (hunif : ∀ kp ∈ unified, ∀ y ∈ odKeys (kp.2 : Payload).values, y ∈ tgt)
    (hord : ∀ kp ∈ ordered, ∀ y ∈ odKeys (kp.2 : Payload).values, y ∈ tgt) :
    ∀ kp ∈ orderStep (bySectionOf unified) pm ly ys tgt ordered sk,
      ∀ y ∈ odKeys (kp.2 : Payload).values, y ∈ tgt := by
  intro kp hkp
  simp only [orderStep] at hkp
  obtain ⟨k0, p0⟩ := kp
  refine padMissingYears_keys _ tgt k0 p0 hkp ?_
  · intro kp' hkp'
    refine foldl_invariant
      (fun o => ∀ kp'' ∈ o, ∀ y ∈ odKeys (kp''.2 : Payload).values, y ∈ tgt)
      _ _ ordered hord ?_ kp' hkp'
    intro b e he hb kp'' hkp''
    rcases mem_odSet hkp'' with heq | hkp''
    · subst heq
      obtain ⟨t, htm, hte⟩ := orderSectionItems_mem _ _ e he
      have hkpm : (t.key, t.payload) ∈ (odGet? (bySectionOf unified) sk).getD [] := by
        rcases htm with h | h
        · exact splitSpine_mem pm ly ys sk _ t (Or.inl h)
        · exact splitSpine_mem pm ly ys sk _ t (Or.inr h)
      have hinu : (t.key, t.payload) ∈ unified := by
        cases hg : odGet? (bySectionOf unified) sk with
        | none =>
          rw [hg] at hkpm
          simp at hkpm
        | some l =>
          rw [hg] at hkpm
          exact bySectionOf_mem unified (sk, l) (odGet?_mem hg) _ hkpm
      have := hunif (t.key, t.payload) hinu
      rw [hte]
      exact this
    · exact hb kp'' hkp''

theorem orderCatalog_keysIn (unified : ODict Payload) (flatAll : ODict (List Row))
    (pm : PosMap) (lo : ODict Nat) (ly : String) (ys : List String)
    (hunif : ∀ kp ∈ unified, ∀ y ∈ odKeys (kp.2 : Payload).values,
      y ∈ collectAllTargetYears flatAll) :
    ∀ kp ∈ orderCatalog unified flatAll pm lo ly ys,
      ∀ y ∈ odKeys (kp.2 : Payload).values, y ∈ collectAllTargetYears flatAll := by
  unfold orderCatalog
  intro kp hkp
  refine foldl_invariant
    (fun o => ∀ kp' ∈ o, ∀ y ∈ odKeys (kp'.2 : Payload).values,
      y ∈ collectAllTargetYears flatAll)
    _ _ [] (by simp) ?_ kp hkp
  intro b a ha hb
  exact orderStep_keysIn unified pm ly ys _ b a hunif hb

theorem orderCatalog_covers (unified : ODict Payload) (flatAll : ODict (List Row))
    (pm : PosMap) (lo : ODict Nat) (ly : String) (ys : List String)
    (k : String) (p : Payload)
    (hp : (k, p) ∈ orderCatalog unified flatAll pm lo ly ys) :
    ∀ y ∈ collectAllTargetYears flatAll,
      ∃ v, odGet? p.values y = some v ∧ v ≠ .vnone := by
  intro y hy
  unfold orderCatalog at hp
  rcases foldl_ends_pad (collectAllTargetYears flatAll)
      (orderStep (bySectionOf unified) pm ly ys (collectAllTargetYears flatAll))
      (fun b a => ⟨_, rfl⟩) _ [] with h | ⟨X, h⟩
  · rw [h] at hp
    simp at hp
  · rw [h] at hp
    exact padMissingYears_covers X _ k p hp y hy

/-- C3: period-key totality — when `build_unified_catalog` returns, every
entry of the ordered catalog has as its value-key set exactly the union of
all normalized period keys observed across all rows of all input periods
(the collected target years), and every such key is bound to an explicit
non-`None` value. -/
theorem c3_period_key_totality (yearsJson : ODict Stmt) (stmtType : String)
    (catalog : ODict Payload)
    (hok : buildUnifiedCatalog yearsJson stmtType = .ok catalog) :
    ∀ kp ∈ catalog, ∀ y : String,
      (y ∈ odKeys (kp.2 : Payload).values ↔
        y ∈ collectAllTargetYears (flatAllOf yearsJson)) ∧
      (y ∈ collectAllTargetYears (flatAllOf yearsJson) →
        ∃ v, odGet? (kp.2 : Payload).values y = some v ∧ v ≠ .vnone) := by
  simp only [buildUnifiedCatalog] at hok
  cases hys : stableSort (fun a b => strLeB b a) (odKeys yearsJson) with
  | nil =>
    rw [hys] at hok
    simp at hok
  | cons latestYear rest =>
    rw [hys] at hok
    simp only [] at hok
    rcases except_bind_ok hok with ⟨st, hst, hpure⟩
    simp only [Pure.pure, Except.pure] at hpure
    cases hpure
    have hstepPres : ∀ (b : ODict Payload × ODict (List Row))
        (a : String × List Row) (r : ODict Payload × ODict (List Row)),
        a ∈ flatAllOf yearsJson →
        ((∀ kp ∈ b.1, ∀ y ∈ odKeys (kp.2 : Payload).values,
            y ∈ allValueKeys (flatAllOf yearsJson)) ∧
          valueKeyLists b.2 = valueKeyLists (flatAllOf yearsJson)) →
        ((do
          let merged ← mergeFiling ((odKeys yearsJson).getLast?.getD "") b.1 a.2
          pure (merged.1, odSet b.2 a.1 merged.2)) = Except.ok r) →
        ((∀ kp ∈ r.1, ∀ y ∈ odKeys (kp.2 : Payload).values,
            y ∈ allValueKeys (flatAllOf yearsJson)) ∧
          valueKeyLists r.2 = valueKeyLists (flatAllOf yearsJson)) := by
      intro b a r ha hb hstep
      rcases except_bind_ok hstep with ⟨merged, hmf, hpr⟩
      simp only [Pure.pure, Except.pure] at hpr
      cases hpr
      have hrows : ∀ r0 ∈ a.2, ∀ y ∈ odKeys (r0 : Row).values,
          y ∈ allValueKeys (flatAllOf yearsJson) :=
        fun r0 hr0 y hy => mem_allValueKeys _ a r0 y ha hr0 hy
      obtain ⟨hm1, hm2⟩ := mergeFiling_keysIn _ b.1 a.2 merged _ hb.1 hrows hmf
      refine ⟨hm1, ?_⟩
      rw [valueKeyLists_odSet, hb.2]
      have hmkeys : merged.2.map (fun r => odKeys r.values)
          = a.2.map (fun r => odKeys r.values) := by
        rw [hm2]
        obtain ⟨f, hfeq, hfpres⟩ :=
          rewriteSectionMeta_exists_map b.1 (buildGreedySectionMap b.1 a.2) a.2
        rw [hfeq, List.map_map]
        exact List.map_congr_left (fun r _ => by
          simp [Function.comp, (hfpres r).2.2.1])
      rw [hmkeys]
      apply odSet_eq_of_get
      unfold valueKeyLists
      rw [odGet?_map_val, odGet?_of_mem_nodup _ a (flatAllOf_nodup yearsJson) ha]
      rfl
    have hinv := foldlM_invariant
      (fun st : ODict Payload × ODict (List Row) =>
        (∀ kp ∈ st.1, ∀ y ∈ odKeys (kp.2 : Payload).values,
          y ∈ allValueKeys (flatAllOf yearsJson)) ∧
        valueKeyLists st.2 = valueKeyLists (flatAllOf yearsJson))
      _ (flatAllOf yearsJson) ([], flatAllOf yearsJson) st
      ⟨by simp, rfl⟩ hstepPres hst
    have htgt : collectAllTargetYears st.2
        = collectAllTargetYears (flatAllOf yearsJson) :=
      collectAllTargetYears_congr _ _ hinv.2
    have hU1 : ∀ kp ∈ st.1, ∀ y ∈ odKeys (kp.2 : Payload).values,
        y ∈ collectAllTargetYears (flatAllOf yearsJson) :=
      fun kp hkp y hy =>
        mem_collectAllTargetYears_of _ y (hinv.1 kp hkp y hy)
    have hz := zeroOutOverlappingYears_keysIn st.1 st.2 (latestYear :: rest)
      (collectAllTargetYears (flatAllOf yearsJson)) hU1
    have hpatch := patchLatestSectionLabels_keysIn _
      ((odGet? st.2 latestYear).getD [])
      (collectAllTargetYears (flatAllOf yearsJson)) hz
    have hunif2 : ∀ kp ∈ patchLatestSectionLabels
          (zeroOutOverlappingYears st.1 st.2 (latestYear :: rest))
          ((odGet? st.2 latestYear).getD []),
        ∀ y ∈ odKeys (kp.2 : Payload).values,
          y ∈ collectAllTargetYears st.2 := by
      rw [htgt]
      exact hpatch
    intro kp hkp y
    obtain ⟨k0, p0⟩ := kp
    have hkeys : ∀ y' ∈ odKeys p0.values, y' ∈ collectAllTargetYears st.2 :=
      orderCatalog_keysIn _ st.2 _ _ latestYear (latestYear :: rest) hunif2
        (k0, p0) hkp
    have hcov : ∀ y' ∈ collectAllTargetYears st.2,
        ∃ v, odGet? p0.values y' = some v ∧ v ≠ .vnone :=
      orderCatalog_covers _ st.2 _ _ latestYear (latestYear :: rest) k0 p0 hkp
    constructor
    · constructor
      · intro hy
        rw [← htgt]
        exact hkeys y hy
      · intro hy
        rw [← htgt] at hy
        obtain ⟨v, hv, hvne⟩ := hcov y hy
        rw [mem_odKeys_iff_odHas]
        unfold odHas
        rw [hv]
        rfl
    · intro hy
      rw [← htgt] at hy
      exact hcov y hy

/-- C3 witness: on the concrete two-filing input the returned catalog's single
entry holds the observed period key `2022`, bound to an explicit value. -/
theorem c3_witness :
    ("2022" ∈ odKeys (c3Entry.2 : Payload).values ↔
      "2022" ∈ collectAllTargetYears (flatAllOf c1Input)) ∧
    ("2022" ∈ collectAllTargetYears (flatAllOf c1Input) →
      ∃ v, odGet? (c3Entry.2 : Payload).values "2022" = some v ∧ v ≠ .vnone) :=
  c3_period_key_totality c1Input "income_statement" c3Cat (by decide)
    c3Entry (by decide) "2022"

end FinMerge
